import Mathlib

/-!
Verification of the GEDCOM parser's identity factory, promotion pass,
relationship linker and entity-resolution engine, shallow-embedded from the
Python sources in src/gedcom_parser.

Python strings are modelled as lists of characters (`Str`), Python dicts as
association lists processed in insertion order, Python floats as exact
rationals (every number produced by the scoring code is a rational and the
thresholds are decimal literals), and fallible code as `Option`/`Except`.
-/

/-- Python strings, modelled as lists of characters. -/
abbrev Str := List Char

/-- Truthiness of a Python string: nonempty. -/
def truthyStr (s : Str) : Prop := s ≠ []

instance (s : Str) : Decidable (truthyStr s) := by
  unfold truthyStr; infer_instance

/-- Truthiness of an optional Python string (None and the empty string are falsy). -/
def truthyOpt (s : Option Str) : Prop :=
  match s with
  | none => False
  | some s => s ≠ []

instance (s : Option Str) : Decidable (truthyOpt s) := by
  unfold truthyOpt
  match s with
  | none => exact inferInstanceAs (Decidable False)
  | some s => infer_instance

/-- Python `x or y` specialised to strings with a string default:
the first operand when truthy, otherwise the default. `none` models both a
missing key and an explicit `None` value. -/
def pyOrStr (x : Option Str) (d : Str) : Str :=
  match x with
  | none => d
  | some s => if s = [] then d else s

/-- Lower-case ASCII letters, as produced by `str.lower` on ASCII input
(source: `normalize_token` lowercases before filtering). -/
def lowerAscii (s : Str) : Str := s.map Char.toLower

/-- Membership test for the character class `[a-z0-9]` used by the
normalizer's regular expression. -/
def isLowerAlnum (c : Char) : Bool :=
  (decide ('a' ≤ c) && decide (c ≤ 'z')) || (decide ('0' ≤ c) && decide (c ≤ '9'))

/-- Source `normalize_token`: lower-case the token and delete every character
outside `[a-z0-9]` (the regex substitutes `[^a-z0-9]+` with the empty string). -/
def normalize_token (t : Str) : Str :=
  (lowerAscii t).filter isLowerAlnum

/-- Python whitespace recognised by `str.split()` / `str.strip()`. -/
def isPyWs (c : Char) : Bool :=
  c.toNat = 32 || c.toNat = 9 || c.toNat = 10 || c.toNat = 13 || c.toNat = 11 || c.toNat = 12

/-- Helper for `splitWs`: accumulates the current word reversed. -/
def splitWsAux : Str → Str → List Str
  | [], cur => if cur = [] then [] else [cur.reverse]
  | c :: rest, cur =>
    if isPyWs c then
      if cur = [] then splitWsAux rest []
      else cur.reverse :: splitWsAux rest []
    else splitWsAux rest (c :: cur)

/-- Python `str.split()` with no argument: split on runs of whitespace,
discarding empty fields. -/
def splitWs (s : Str) : List Str := splitWsAux s []

/-- Python `str.strip()`: drop leading and trailing whitespace. -/
def stripWs (s : Str) : Str :=
  ((s.dropWhile isPyWs).reverse.dropWhile isPyWs).reverse

/-- Python `str.upper` on ASCII input. -/
def upperAscii (s : Str) : Str := s.map Char.toUpper

/-!
Fuzzy similarity. Source `jaro_ratio` delegates to
`difflib.SequenceMatcher(None, a, b).ratio()`, which is
`2 * M / (len a + len b)` where `M` is the total size of the matching blocks.
We embed the stdlib matcher for its no-junk regime (autojunk only activates
on strings of length at least 200, far beyond any normalized name token; with
no junk the two extension loops after the dynamic program are no-ops, because
the j2len dynamic program already records every maximal diagonal run).
-/

/-- Ascending list of the positions of `c` in `b` (the matcher's `b2j` map). -/
def charPositions (b : Str) (c : Char) : List Nat :=
  (b.enum.filter (fun p => p.2 = c)).map (fun p => p.1)

/-- One row of the `find_longest_match` dynamic program: process the positions
of `a[i]` in `b` in ascending order, extending diagonal runs recorded in
`j2len` and improving the best block on a strictly longer run (the source
updates only when `k > bestsize`, so ties keep the earliest block). -/
def lmRow (j2len : List (Nat × Nat)) (i : Nat) (js : List Nat)
    (best : Nat × Nat × Nat) : List (Nat × Nat) × (Nat × Nat × Nat) :=
  js.foldl
    (fun st j =>
      let k := (if j = 0 then 0 else ((j2len.lookup (j - 1)).getD 0)) + 1
      let best' := if st.2.2.2 < k then (i + 1 - k, j + 1 - k, k) else st.2
      ((j, k) :: st.1, best'))
    ([], best)

/-- Source `SequenceMatcher.find_longest_match` over whole strings (no junk):
returns `(besti, bestj, bestsize)`. -/
def longestMatch (a b : Str) : Nat × Nat × Nat :=
  (a.enum.foldl
    (fun (st : List (Nat × Nat) × (Nat × Nat × Nat)) p =>
      lmRow st.1 p.1 (charPositions b p.2) st.2)
    ([], (0, 0, 0))).2

/-- Total matched size of `get_matching_blocks`, written with explicit fuel:
each recursive call is on strict sublists, so `|a| + |b| + 1` units always
suffice (see `matchTotal`). -/
def matchTotalF : Nat → Str → Str → Nat
  | 0, _, _ => 0
  | fuel + 1, a, b =>
    let r := longestMatch a b
    if r.2.2 = 0 then 0
    else
      matchTotalF fuel (a.take r.1) (b.take r.2.1) + r.2.2 +
        matchTotalF fuel (a.drop (r.1 + r.2.2)) (b.drop (r.2.1 + r.2.2))

/-- Sum of the sizes of all matching blocks between `a` and `b`. -/
def matchTotal (a b : Str) : Nat := matchTotalF (a.length + b.length + 1) a b

/-- Source `jaro_ratio`: 0 when both strings are empty, else the
SequenceMatcher ratio `2 M / (|a| + |b|)` as an exact rational. -/
def jaro_sim (a b : Str) : ℚ :=
  if a = [] ∧ b = [] then 0
  else (2 * (matchTotal a b : ℚ)) / ((a.length : ℚ) + (b.length : ℚ))

/-!
The individuals consumed by the entity-resolution module are plain JSON
dictionaries. We model exactly the shape the module reads: optional fields are
`Option`, a missing key and an explicit `None` value coincide (every access
site treats them identically), and values of unexpected runtime type at sites
guarded by `isinstance` behave as absent.
-/

/-- A `name_block.normalized` / `name_block.parsed` sub-dictionary. -/
structure NormName where
  given : Option Str := none
  surname : Option Str := none
deriving DecidableEq

/-- A `name_block` dictionary. -/
structure NameBlock where
  normalized : Option NormName := none
  parsed : Option NormName := none
  raw : Option Str := none
deriving DecidableEq

/-- One entry of a legacy `names` list: a dictionary (with `type`, `given`,
`surname` keys), a plain string, or a value of any other type (skipped by
every `isinstance` check in the source). -/
inductive NameEntry where
  | ndict (ntype given surname : Option Str)
  | nstr (s : Str)
  | nother
deriving DecidableEq

/-- An event's `date` value: either a string or a dictionary. For the
dictionary form, each of the four keys probed by `_extract_date_field` is
modelled as present-with-value, present-as-None, or missing; `reprStr` is the
`str()` rendering used by the source's final fallback. A date equal to the
empty string or the empty dictionary is falsy; we model the empty dictionary
by `vstr []`, which takes the same path (no year extracted). -/
inductive DateVal where
  | vstr (s : Str)
  | vdict (normalized value raw original : Option (Option Str)) (reprStr : Str)
deriving DecidableEq

/-- An event's `standard_place` sub-dictionary. -/
structure StdPlace where
  id : Option Str := none
deriving DecidableEq

/-- One entry of an individual's `events` list. -/
structure PEvent where
  tag : Option Str := none
  date : Option DateVal := none
  place : Option Str := none
  standard_place : Option StdPlace := none
deriving DecidableEq

/-- An individual dictionary, with every key the entity-resolution module
reads. `name`, `full_name` and `display_name` are consulted through an
`isinstance(str)` guard, so non-string values coincide with absence. -/
structure Person where
  name_block : Option NameBlock := none
  names : Option (List NameEntry) := none
  name : Option Str := none
  full_name : Option Str := none
  display_name : Option Str := none
  events : List PEvent := []
  gender : Option Str := none
  id : Option Str := none
  source_ids : Option (List Str) := none
deriving DecidableEq

/-- The dictionary returned by `get_normalized_name_view`. -/
structure NameView where
  given : Str
  surname : Str
  given_norm : Str
  surname_norm : Str
  full_norm : Str
deriving DecidableEq

/-- Shared raw-string fallback of `get_normalized_name_view`: replace slashes
by spaces, split on whitespace; one part is a surname, two or more give
`(first, last)` as `(given, surname)`. -/
def rawNameParts (v : Str) : Str × Str :=
  let parts := splitWs (v.map (fun c => if c = '/' then ' ' else c))
  match parts with
  | [] => ([], [])
  | [s] => ([], s)
  | p1 :: p2 :: rest => (p1, (p2 :: rest).getLast? |>.getD [])

/-- Step 1 of `get_normalized_name_view`: the `name_block` accessor,
including its raw-string last-ditch parse. -/
def nameFromBlock (block : NameBlock) : Str × Str :=
  let n := block.normalized.getD {}
  let p := block.parsed.getD {}
  let given := pyOrStr n.given (pyOrStr p.given [])
  let surname := pyOrStr n.surname (pyOrStr p.surname [])
  if given = [] ∧ surname = [] then
    rawNameParts (pyOrStr block.raw [])
  else (given, surname)

/-- True for dictionary entries whose `type` lower-cases to `primary`
(source: `n.get("type", "").lower() == "primary"`). -/
def isPrimaryEntry (ne : NameEntry) : Prop :=
  match ne with
  | .ndict t _ _ => lowerAscii (t.getD []) = "primary".toList
  | _ => False

instance (ne : NameEntry) : Decidable (isPrimaryEntry ne) := by
  unfold isPrimaryEntry
  match ne with
  | .ndict t _ _ => infer_instance
  | .nstr _ => exact inferInstanceAs (Decidable False)
  | .nother => exact inferInstanceAs (Decidable False)

/-- Step 2 of `get_normalized_name_view`: the legacy `names` list fallback. -/
def nameFromNamesList (names : List NameEntry) : Str × Str :=
  let primary :=
    match names.find? (fun ne => decide (isPrimaryEntry ne)) with
    | some d => some d
    | none => names.find? (fun ne => match ne with | .ndict _ _ _ => true | _ => false)
  match primary with
  | some (.ndict _ g s) => (pyOrStr g [], pyOrStr s [])
  | _ =>
    match names.head? with
    | some (.nstr s) => rawNameParts s
    | _ => ([], [])

/-- Step 3 of `get_normalized_name_view`: the first of `name`, `full_name`,
`display_name` that is a string with non-whitespace content. -/
def nameFromStringFields (person : Person) : Str × Str :=
  match [person.name, person.full_name, person.display_name].find?
      (fun v => match v with | some s => !(stripWs s).isEmpty | none => false) with
  | some (some v) => rawNameParts v
  | _ => ([], [])

/-- Source `get_normalized_name_view`: unified backward-compatible name
accessor. Tries `name_block`, then the `names` list, then single string
fields; normalizes both tokens and substitutes the sentinel `unknown` for an
empty token. -/
def get_normalized_name_view (person : Person) : NameView :=
  let gs1 :=
    match person.name_block with
    | some block => nameFromBlock block
    | none => ([], [])
  let gs2 :=
    if gs1.1 = [] ∧ gs1.2 = [] then
      match person.names with
      | some names => if names = [] then gs1 else nameFromNamesList names
      | none => gs1
    else gs1
  let gs3 :=
    if gs2.1 = [] ∧ gs2.2 = [] then nameFromStringFields person
    else gs2
  let given_norm := normalize_token gs3.1
  let surname_norm := normalize_token gs3.2
  let given_norm := if given_norm = [] then "unknown".toList else given_norm
  let surname_norm := if surname_norm = [] then "unknown".toList else surname_norm
  { given := gs3.1
    surname := gs3.2
    given_norm := given_norm
    surname_norm := surname_norm
    full_norm := stripWs (given_norm ++ ' ' :: surname_norm) }

/-- Normalized `(given, surname)` pair for blocking and scoring
(source `extract_normalized_given_surname`). -/
def extract_normalized_given_surname (person : Person) : Str × Str :=
  let view := get_normalized_name_view person
  (view.given_norm, view.surname_norm)

/-- The normalized surname token of a person, as used by scoring. -/
def surname_norm_of (p : Person) : Str := (get_normalized_name_view p).surname_norm

/-- The normalized given token of a person, as used by scoring. -/
def given_norm_of (p : Person) : Str := (get_normalized_name_view p).given_norm

/-- Source constant: strict surname gate. -/
def STRICT_SURNAME_MATCH_THRESHOLD : ℚ := 0.95

/-- The given-name contribution of `name_similarity`: fuzzy similarity of the
normalized given tokens when both are usable, else 0. -/
def given_similarity (p1 p2 : Person) : ℚ :=
  let g1 := given_norm_of p1
  let g2 := given_norm_of p2
  if g1 ≠ [] ∧ g2 ≠ [] ∧ g1 ≠ "unknown".toList ∧ g2 ≠ "unknown".toList then
    jaro_sim g1 g2
  else 0

/-- Source `name_similarity` (strict surname requirement, Option B). -/
def name_similarity (p1 p2 : Person) : ℚ :=
  let s1 := surname_norm_of p1
  let s2 := surname_norm_of p2
  if s1 = [] ∨ s1 = "unknown".toList ∨ s2 = [] ∨ s2 = "unknown".toList then 0
  else
    let surname_score := jaro_sim s1 s2
    if surname_score < STRICT_SURNAME_MATCH_THRESHOLD then 0
    else 0.7 * surname_score + 0.3 * given_similarity p1 p2

/-- Person with a structured normalized name, for concrete checks. -/
def personOfSurname (s g : Str) : Person :=
  { name_block := some { normalized := some { given := some g, surname := some s } } }

/-- C2: strict surname gate. For every pair of individuals whose fuzzy surname
similarity is below 0.95, name_similarity returns 0 regardless of given-name
similarity; for every pair at or above 0.95 with usable surnames it returns
0.7 x surname_similarity + 0.3 x given_name_similarity. The boundary is
inclusive (see the witness: similarity exactly 0.95 passes the gate and
exactly 0.94 does not). -/
theorem C2_strict_surname_gate (p1 p2 : Person) :
    (jaro_sim (surname_norm_of p1) (surname_norm_of p2) < 0.95 →
      name_similarity p1 p2 = 0)
  ∧ (surname_norm_of p1 ≠ [] → surname_norm_of p1 ≠ "unknown".toList →
     surname_norm_of p2 ≠ [] → surname_norm_of p2 ≠ "unknown".toList →
     (0.95 : ℚ) ≤ jaro_sim (surname_norm_of p1) (surname_norm_of p2) →
      name_similarity p1 p2 =
        0.7 * jaro_sim (surname_norm_of p1) (surname_norm_of p2) +
        0.3 * given_similarity p1 p2) := by
  constructor
  · intro h
    simp only [name_similarity, STRICT_SURNAME_MATCH_THRESHOLD]
    split_ifs <;> rfl
  · intro e1 u1 e2 u2 hge
    simp only [name_similarity, STRICT_SURNAME_MATCH_THRESHOLD]
    split_ifs with h1 h2
    · rcases h1 with h | h | h | h
      · exact absurd h e1
      · exact absurd h u1
      · exact absurd h e2
      · exact absurd h u2
    · exact absurd h2 (not_lt.mpr hge)
    · rfl

def wGate1 : Person := personOfSurname ("abcdefghijklmnopqrst".toList) ("john".toList)
def wGate2 : Person := personOfSurname ("abcdefghijklmnopqrsu".toList) ("jon".toList)
def wBelow1 : Person :=
  personOfSurname ("abcdefghijklmnopqrstuvwxyz0123456789abcdefghijklll".toList) []
def wBelow2 : Person :=
  personOfSurname ("abcdefghijklmnopqrstuvwxyz0123456789abcdefghijkmmm".toList) []

set_option maxRecDepth 200000 in
/-- The boundary pair below the gate: surname similarity exactly 0.94. -/
theorem jaro_wBelow : jaro_sim (surname_norm_of wBelow1) (surname_norm_of wBelow2) = 0.94 := by
  have h1 : matchTotal (surname_norm_of wBelow1) (surname_norm_of wBelow2) = 47 := by decide
  have h2 : (surname_norm_of wBelow1).length = 50 := by decide
  have h3 : (surname_norm_of wBelow2).length = 50 := by decide
  have h4 : ¬(surname_norm_of wBelow1 = [] ∧ surname_norm_of wBelow2 = []) := by decide
  unfold jaro_sim
  rw [if_neg h4, h1, h2, h3]
  norm_num

set_option maxRecDepth 200000 in
/-- The boundary pair at the gate: surname similarity exactly 0.95. -/
theorem jaro_wGate : jaro_sim (surname_norm_of wGate1) (surname_norm_of wGate2) = 0.95 := by
  have h1 : matchTotal (surname_norm_of wGate1) (surname_norm_of wGate2) = 19 := by decide
  have h2 : (surname_norm_of wGate1).length = 20 := by decide
  have h3 : (surname_norm_of wGate2).length = 20 := by decide
  have h4 : ¬(surname_norm_of wGate1 = [] ∧ surname_norm_of wGate2 = []) := by decide
  unfold jaro_sim
  rw [if_neg h4, h1, h2, h3]
  norm_num

/-- Witness for C2 at the two boundary inputs: a pair with surname similarity
exactly 0.94 scores 0, and a pair with surname similarity exactly 0.95 passes
the gate and receives the weighted combination. -/
theorem C2_strict_surname_gate_witness :
    (jaro_sim (surname_norm_of wBelow1) (surname_norm_of wBelow2) = 0.94 ∧
      name_similarity wBelow1 wBelow2 = 0)
  ∧ (jaro_sim (surname_norm_of wGate1) (surname_norm_of wGate2) = 0.95 ∧
      name_similarity wGate1 wGate2 =
        0.7 * 0.95 + 0.3 * given_similarity wGate1 wGate2) := by
  refine ⟨⟨jaro_wBelow, (C2_strict_surname_gate wBelow1 wBelow2).1 (by rw [jaro_wBelow]; norm_num)⟩,
    ⟨jaro_wGate, ?_⟩⟩
  have h := (C2_strict_surname_gate wGate1 wGate2).2 (by decide) (by decide) (by decide)
    (by decide) (by rw [jaro_wGate])
  rw [h, jaro_wGate]

/-- C10: unknown-surname guard. Whenever either side's normalized surname
token is empty or the sentinel "unknown", name_similarity returns exactly 0. -/
theorem C10_unknown_surname_guard (p1 p2 : Person)
    (h : surname_norm_of p1 = [] ∨ surname_norm_of p1 = "unknown".toList ∨
         surname_norm_of p2 = [] ∨ surname_norm_of p2 = "unknown".toList) :
    name_similarity p1 p2 = 0 := by
  simp only [name_similarity]
  split_ifs
  rfl

def blankPerson : Person := {}

/-- Two individuals with no surname both receive the sentinel token, whose
self-similarity is 1 (it would pass the gate). -/
theorem jaro_blank : jaro_sim (surname_norm_of blankPerson) (surname_norm_of blankPerson) = 1 := by
  have h1 : matchTotal (surname_norm_of blankPerson) (surname_norm_of blankPerson) = 7 := by decide
  have h2 : (surname_norm_of blankPerson).length = 7 := by decide
  have h4 : ¬(surname_norm_of blankPerson = [] ∧ surname_norm_of blankPerson = []) := by decide
  unfold jaro_sim
  rw [if_neg h4, h1, h2]
  norm_num

/-- Witness for C10: two individuals who both lack surnames carry identical
sentinel tokens with fuzzy similarity 1.0, yet their name sub-score is 0. -/
theorem C10_unknown_surname_guard_witness :
    surname_norm_of blankPerson = "unknown".toList ∧
    jaro_sim (surname_norm_of blankPerson) (surname_norm_of blankPerson) = 1 ∧
    name_similarity blankPerson blankPerson = 0 :=
  ⟨by decide, jaro_blank, C10_unknown_surname_guard blankPerson blankPerson (by decide)⟩

/-!
Blocking for individuals (source lines 354-506): birth-event extraction, the
blocking key, block construction, and in-block pair generation.
-/

/-- Source `extract_birth_event` loop: the first `BIRT` event wins
immediately; otherwise the first `CHR`/`BAPM` event is remembered and
returned at the end (the source's `birth` local is always `None` there). -/
def birthScan : List PEvent → Option PEvent → Option PEvent
  | [], christen => christen
  | e :: rest, christen =>
    if upperAscii (e.tag.getD []) = "BIRT".toList then some e
    else if (upperAscii (e.tag.getD []) = "CHR".toList ∨
             upperAscii (e.tag.getD []) = "BAPM".toList) ∧ christen = none then
      birthScan rest (some e)
    else birthScan rest christen

/-- Source `extract_birth_event`. -/
def extract_birth_event (p : Person) : Option PEvent := birthScan p.events none

/-- Source `_extract_date_field`: for a dictionary, the first present key
among `normalized`, `value`, `raw`, `original` (a present `None` stringifies
to the empty string), else the dictionary's `str()` rendering; for any other
value, its `str()`. -/
def extract_date_field (d : DateVal) : Str :=
  match d with
  | .vstr s => s
  | .vdict (some x) _ _ _ _ => x.getD []
  | .vdict none (some x) _ _ _ => x.getD []
  | .vdict none none (some x) _ _ => x.getD []
  | .vdict none none none (some x) _ => x.getD []
  | .vdict none none none none rep => rep

/-- Truthiness of an event's `date` value (`if not date_obj`). -/
def dateTruthy : Option DateVal → Prop
  | none => False
  | some (.vstr s) => s ≠ []
  | some (.vdict _ _ _ _ _) => True

instance (d : Option DateVal) : Decidable (dateTruthy d) := by
  unfold dateTruthy
  match d with
  | none => exact inferInstanceAs (Decidable False)
  | some (.vstr s) => infer_instance
  | some (.vdict _ _ _ _ _) => exact inferInstanceAs (Decidable True)

/-- Decimal digit test for the scan of `re.search(r"(\d{4})", text)`. -/
def isDigitCh (c : Char) : Bool := decide ('0' ≤ c) && decide (c ≤ '9')

/-- Numeric value of a decimal digit character. -/
def digitVal (c : Char) : Nat := c.toNat - 48

/-- Leftmost run of four consecutive decimal digits, as the regex
`(\d{4})` finds it (its match starts at the earliest possible position). -/
def findYear : Str → Option Nat
  | c1 :: c2 :: c3 :: c4 :: rest =>
    if isDigitCh c1 ∧ isDigitCh c2 ∧ isDigitCh c3 ∧ isDigitCh c4 then
      some (1000 * digitVal c1 + 100 * digitVal c2 + 10 * digitVal c3 + digitVal c4)
    else findYear (c2 :: c3 :: c4 :: rest)
  | _ => none

/-- Source `extract_birth_year`: the `int(...)` conversion of a four-digit
regex match never fails, so the `except` branch is dead. -/
def extract_birth_year (p : Person) : Option Nat :=
  match extract_birth_event p with
  | none => none
  | some evt =>
    match evt.date with
    | none => none
    | some d => if dateTruthy (some d) then findYear (extract_date_field d) else none

/-- Decimal digit character. -/
def digitCh (d : Nat) : Char := Char.ofNat (48 + d)

/-- Helper for `natDecimal` with explicit fuel (the quotient shrinks by a
factor of ten per step, so `n + 1` units always suffice). -/
def natDecimalAux : Nat → Nat → Str
  | 0, _ => []
  | fuel + 1, n =>
    if n < 10 then [digitCh n]
    else natDecimalAux fuel (n / 10) ++ [digitCh (n % 10)]

/-- Python `str(n)` for a non-negative integer. -/
def natDecimal (n : Nat) : Str := natDecimalAux (n + 1) n

/-- Source `extract_birth_year_bucket`: the exact year as a string, else
the sentinel `UNKNOWN`. -/
def extract_birth_year_bucket (p : Person) : Str :=
  match extract_birth_year p with
  | none => "UNKNOWN".toList
  | some y => natDecimal y

/-- Source `extract_birth_place_uuid`: the standardized place id if present,
else the normalized raw place string, else `UNKNOWN`. -/
def extract_birth_place_uuid (p : Person) : Str :=
  match extract_birth_event p with
  | none => "UNKNOWN".toList
  | some evt =>
    let pid := match evt.standard_place with
      | some std => std.id.getD []
      | none => []
    if pid ≠ [] then pid
    else
      let raw_place := evt.place.getD []
      if raw_place = [] then "UNKNOWN".toList
      else normalize_token raw_place

/-- Source `individual_blocking_key`:
`f"{surname_component}|{year_bucket}|{place_id}"`. -/
def individual_blocking_key (p : Person) : Str :=
  let surname_n := (extract_normalized_given_surname p).2
  let year_bucket := extract_birth_year_bucket p
  let place_id := extract_birth_place_uuid p
  let surname_component := if surname_n = [] then "unknown_surname".toList else surname_n
  surname_component ++ '|' :: (year_bucket ++ '|' :: place_id)

/-- Python `dict.setdefault(key, []).append(iid)` over an association list. -/
def blocksAdd (blocks : List (Str × List Str)) (key : Str) (iid : Str) :
    List (Str × List Str) :=
  match blocks with
  | [] => [(key, [iid])]
  | (k, ids) :: rest =>
    if k = key then (k, ids ++ [iid]) :: rest
    else (k, ids) :: blocksAdd rest key iid

/-- Source `build_individual_blocks` (every value of the individuals map is a
dictionary in this model, so the `isinstance` skip never fires). -/
def build_individual_blocks (inds : List (Str × Person)) : List (Str × List Str) :=
  inds.foldl (fun blocks kv => blocksAdd blocks (individual_blocking_key kv.2) kv.1) []

/-- All in-block index pairs `i < j`, in the source's enumeration order. -/
def pairsOfList : List Str → List (Str × Str)
  | [] => []
  | x :: rest => rest.map (fun y => (x, y)) ++ pairsOfList rest

/-- Append pairs one at a time; the Boolean reports that the running length
reached `maxp`, at which point the source returns immediately. -/
def addPairsCapped (maxp : Nat) : List (Str × Str) → List (Str × Str) →
    List (Str × Str) × Bool
  | acc, [] => (acc, false)
  | acc, p :: ps =>
    let acc' := acc ++ [p]
    if maxp ≤ acc'.length then (acc', true)
    else addPairsCapped maxp acc' ps

/-- Block loop of `generate_block_pairs`: blocks with fewer than two members
are skipped, and generation stops as soon as the cap is reached. -/
def genPairsGo (maxp : Nat) : List (Str × List Str) → List (Str × Str) →
    List (Str × Str)
  | [], acc => acc
  | (_, ids) :: rest, acc =>
    if ids.length < 2 then genPairsGo maxp rest acc
    else
      let r := addPairsCapped maxp acc (pairsOfList ids)
      if r.2 then r.1 else genPairsGo maxp rest r.1

/-- Source `generate_block_pairs`. -/
def generate_block_pairs (blocks : List (Str × List Str)) (maxp : Nat) :
    List (Str × Str) :=
  genPairsGo maxp blocks []

lemma mem_addPairsCapped (maxp : Nat) (ps : List (Str × Str)) :
    ∀ (acc : List (Str × Str)) (q : Str × Str), q ∈ (addPairsCapped maxp acc ps).1 →
      q ∈ acc ∨ q ∈ ps := by
  induction ps with
  | nil => intro acc q h; simp [addPairsCapped] at h; exact Or.inl h
  | cons p ps ih =>
    intro acc q h
    simp only [addPairsCapped] at h
    split_ifs at h with hc
    · rcases List.mem_append.mp h with h | h
      · exact Or.inl h
      · exact Or.inr (by simp at h; simp [h])
    · rcases ih (acc ++ [p]) q h with h | h
      · rcases List.mem_append.mp h with h | h
        · exact Or.inl h
        · exact Or.inr (by simp at h; simp [h])
      · exact Or.inr (List.mem_cons_of_mem _ h)

lemma mem_genPairsGo (maxp : Nat) (blocks : List (Str × List Str)) :
    ∀ (acc : List (Str × Str)) (q : Str × Str), q ∈ genPairsGo maxp blocks acc →
      q ∈ acc ∨ ∃ k ids, (k, ids) ∈ blocks ∧ q ∈ pairsOfList ids := by
  induction blocks with
  | nil => intro acc q h; simp [genPairsGo] at h; exact Or.inl h
  | cons b rest ih =>
    intro acc q h
    obtain ⟨k0, ids0⟩ := b
    simp only [genPairsGo] at h
    split_ifs at h with h1 h2
    · rcases ih acc q h with h | ⟨k, ids, hm, hq⟩
      · exact Or.inl h
      · exact Or.inr ⟨k, ids, List.mem_cons_of_mem _ hm, hq⟩
    · rcases mem_addPairsCapped maxp (pairsOfList ids0) acc q h with h | h
      · exact Or.inl h
      · exact Or.inr ⟨k0, ids0, List.mem_cons_self _ _, h⟩
    · rcases ih _ q h with h | ⟨k, ids, hm, hq⟩
      · rcases mem_addPairsCapped maxp (pairsOfList ids0) acc q h with h | h
        · exact Or.inl h
        · exact Or.inr ⟨k0, ids0, List.mem_cons_self _ _, h⟩
      · exact Or.inr ⟨k, ids, List.mem_cons_of_mem _ hm, hq⟩

lemma mem_pairsOfList (x y : Str) : ∀ (l : List Str), (x, y) ∈ pairsOfList l →
    x ∈ l ∧ y ∈ l := by
  intro l
  induction l with
  | nil => intro h; simp [pairsOfList] at h
  | cons a rest ih =>
    intro h
    simp only [pairsOfList] at h
    rcases List.mem_append.mp h with h | h
    · obtain ⟨z, hz, he⟩ := List.mem_map.mp h
      obtain ⟨rfl, rfl⟩ := Prod.mk.injEq .. |>.mp he
      exact ⟨List.mem_cons_self _ _, List.mem_cons_of_mem _ hz⟩
    · obtain ⟨h1, h2⟩ := ih h
      exact ⟨List.mem_cons_of_mem _ h1, List.mem_cons_of_mem _ h2⟩

/-- Invariant of block construction: every id placed in a block entered under
its own person, and the block key is that person's blocking key. -/
def BlocksInv (inds : List (Str × Person)) (blocks : List (Str × List Str)) : Prop :=
  ∀ k ids, (k, ids) ∈ blocks → ∀ x ∈ ids,
    ∃ p, (x, p) ∈ inds ∧ individual_blocking_key p = k

lemma blocksAdd_inv {inds : List (Str × Person)} {blocks : List (Str × List Str)}
    {iid k0 : Str} {person : Person}
    (h : BlocksInv inds blocks) (hp : (iid, person) ∈ inds)
    (hk : individual_blocking_key person = k0) :
    BlocksInv inds (blocksAdd blocks k0 iid) := by
  induction blocks with
  | nil =>
    intro k ids hm x hx
    simp [blocksAdd] at hm
    obtain ⟨rfl, rfl⟩ := hm
    simp at hx
    exact ⟨person, by simp [hx, hp], hk⟩
  | cons b rest ih =>
    obtain ⟨kb, idsb⟩ := b
    intro k ids hm x hx
    simp only [blocksAdd] at hm
    split_ifs at hm with he
    · rcases List.mem_cons.mp hm with hm | hm
      · obtain ⟨rfl, rfl⟩ := Prod.mk.injEq .. |>.mp hm
        rcases List.mem_append.mp hx with hx | hx
        · exact h k idsb (List.mem_cons_self _ _) x hx
        · simp at hx
          subst hx he
          exact ⟨person, hp, hk⟩
      · exact h k ids (List.mem_cons_of_mem _ hm) x hx
    · rcases List.mem_cons.mp hm with hm | hm
      · obtain ⟨rfl, rfl⟩ := Prod.mk.injEq .. |>.mp hm
        exact h k ids (List.mem_cons_self _ _) x hx
      · exact ih (fun k' ids' hm' => h k' ids' (List.mem_cons_of_mem _ hm')) k ids hm x hx

lemma foldl_blocks_inv (inds : List (Str × Person)) :
    ∀ (l : List (Str × Person)) (blocks : List (Str × List Str)),
      (∀ kv ∈ l, kv ∈ inds) → BlocksInv inds blocks →
      BlocksInv inds
        (l.foldl (fun blocks kv => blocksAdd blocks (individual_blocking_key kv.2) kv.1) blocks) := by
  intro l
  induction l with
  | nil => intro blocks _ h; simpa using h
  | cons kv rest ih =>
    intro blocks hsub h
    simp only [List.foldl_cons]
    exact ih _ (fun x hx => hsub x (List.mem_cons_of_mem _ hx))
      (blocksAdd_inv h (hsub kv (List.mem_cons_self _ _)) rfl)

lemma build_blocks_inv (inds : List (Str × Person)) :
    BlocksInv inds (build_individual_blocks inds) := by
  unfold build_individual_blocks
  exact foldl_blocks_inv inds inds [] (fun _ h => h) (fun k ids hm => by simp at hm)

lemma assoc_unique {β : Type} (l : List (Str × β)) (h : (l.map Prod.fst).Nodup)
    (a : Str) (b c : β) (h1 : (a, b) ∈ l) (h2 : (a, c) ∈ l) : b = c := by
  induction l with
  | nil => simp at h1
  | cons x rest ih =>
    simp only [List.map_cons, List.nodup_cons] at h
    rcases List.mem_cons.mp h1 with h1 | h1 <;> rcases List.mem_cons.mp h2 with h2 | h2
    · rw [← h2] at h1
      exact (Prod.ext_iff.mp h1).2
    · refine absurd ?_ h.1
      rw [← h1]
      exact List.mem_map.mpr ⟨(a, c), h2, rfl⟩
    · refine absurd ?_ h.1
      rw [← h2]
      exact List.mem_map.mpr ⟨(a, b), h1, rfl⟩
    · exact ih h.2 h1 h2

lemma no_bar_normalize (t : Str) : ('|' : Char) ∉ normalize_token t := by
  intro h
  have := (List.mem_filter.mp h).2
  simp [isLowerAlnum] at this

lemma surname_norm_shape (p : Person) :
    ∃ t, surname_norm_of p =
      (if normalize_token t = [] then "unknown".toList else normalize_token t) := by
  unfold surname_norm_of get_normalized_name_view
  exact ⟨_, rfl⟩

lemma surname_norm_of_ne_nil (p : Person) : surname_norm_of p ≠ [] := by
  obtain ⟨t, ht⟩ := surname_norm_shape p
  rw [ht]
  split_ifs with h
  · decide
  · exact h

lemma surname_norm_no_bar (p : Person) : ('|' : Char) ∉ surname_norm_of p := by
  obtain ⟨t, ht⟩ := surname_norm_shape p
  rw [ht]
  split_ifs with h
  · decide
  · exact no_bar_normalize _

lemma natDecimalAux_digits : ∀ (fuel n : Nat), ∀ c ∈ natDecimalAux fuel n,
    ∃ d, d < 10 ∧ c = digitCh d := by
  intro fuel
  induction fuel with
  | zero => intro n c h; simp [natDecimalAux] at h
  | succ fuel ih =>
    intro n c h
    simp only [natDecimalAux] at h
    split_ifs at h with hn
    · simp at h
      exact ⟨n, hn, h⟩
    · rcases List.mem_append.mp h with h | h
      · exact ih _ c h
      · simp at h
        exact ⟨n % 10, Nat.mod_lt _ (by norm_num), h⟩

lemma digitCh_ne_bar {d : Nat} (h : d < 10) : digitCh d ≠ '|' := by
  interval_cases d <;> decide

lemma bucket_no_bar (p : Person) : ('|' : Char) ∉ extract_birth_year_bucket p := by
  unfold extract_birth_year_bucket
  cases extract_birth_year p with
  | none => decide
  | some y =>
    show ('|' : Char) ∉ natDecimal y
    intro h
    obtain ⟨d, hd, he⟩ := natDecimalAux_digits _ _ _ h
    exact digitCh_ne_bar hd he.symm

lemma append_bar_inj : ∀ (s1 s2 r1 r2 : Str), ('|' : Char) ∉ s1 → ('|' : Char) ∉ s2 →
    s1 ++ '|' :: r1 = s2 ++ '|' :: r2 → s1 = s2 := by
  intro s1
  induction s1 with
  | nil =>
    intro s2 r1 r2 _ h2 he
    cases s2 with
    | nil => rfl
    | cons b t2 =>
      exfalso
      simp only [List.nil_append, List.cons_append, List.cons.injEq] at he
      exact h2 (by rw [he.1]; exact List.mem_cons_self _ _)
  | cons a t1 ih =>
    intro s2 r1 r2 h1 h2 he
    cases s2 with
    | nil =>
      exfalso
      simp only [List.cons_append, List.nil_append, List.cons.injEq] at he
      exact h1 (by rw [← he.1]; exact List.mem_cons_self _ _)
    | cons b t2 =>
      simp only [List.cons_append, List.cons.injEq] at he
      rw [he.1, ih t2 r1 r2 (fun h => h1 (List.mem_cons_of_mem _ h))
        (fun h => h2 (List.mem_cons_of_mem _ h)) he.2]

lemma blocking_key_surname {p q : Person}
    (h : individual_blocking_key p = individual_blocking_key q) :
    surname_norm_of p = surname_norm_of q := by
  have hp : (extract_normalized_given_surname p).2 = surname_norm_of p := rfl
  have hq : (extract_normalized_given_surname q).2 = surname_norm_of q := rfl
  unfold individual_blocking_key at h
  simp only [hp, hq, if_neg (surname_norm_of_ne_nil p), if_neg (surname_norm_of_ne_nil q)] at h
  exact append_bar_inj _ _ _ _ (surname_norm_no_bar p) (surname_norm_no_bar q) h

/-- C6: blocking exclusivity. If two individuals in the registry have
different, non-sentinel normalized surnames, the blocking-plus-pair-generation
stage never emits a candidate pair for them (in either order), for any
max_pairs value: pairs are only enumerated within one block and the block key
starts with the normalized surname. -/
theorem C6_blocking_exclusivity (inds : List (Str × Person))
    (hnd : (inds.map Prod.fst).Nodup) (A B : Str) (pa pb : Person) (maxp : Nat)
    (hA : (A, pa) ∈ inds) (hB : (B, pb) ∈ inds)
    (hdiff : surname_norm_of pa ≠ surname_norm_of pb)
    (_hsa : surname_norm_of pa ≠ "unknown".toList)
    (_hsb : surname_norm_of pb ≠ "unknown".toList) :
    (A, B) ∉ generate_block_pairs (build_individual_blocks inds) maxp ∧
    (B, A) ∉ generate_block_pairs (build_individual_blocks inds) maxp := by
  have key : ∀ X Y : Str, (X, Y) ∈ generate_block_pairs (build_individual_blocks inds) maxp →
      ∃ k ids, (k, ids) ∈ build_individual_blocks inds ∧ X ∈ ids ∧ Y ∈ ids := by
    intro X Y h
    rcases mem_genPairsGo maxp _ [] _ h with h | ⟨k, ids, hm, hq⟩
    · simp at h
    · obtain ⟨hx, hy⟩ := mem_pairsOfList _ _ _ hq
      exact ⟨k, ids, hm, hx, hy⟩
  have main : ∀ X Y : Str, ∀ pX pY : Person, (X, pX) ∈ inds → (Y, pY) ∈ inds →
      surname_norm_of pX ≠ surname_norm_of pY →
      (X, Y) ∉ generate_block_pairs (build_individual_blocks inds) maxp := by
    intro X Y pX pY hX hY hne h
    obtain ⟨k, ids, hm, hx, hy⟩ := key X Y h
    obtain ⟨p1, hp1, hk1⟩ := build_blocks_inv inds k ids hm X hx
    obtain ⟨p2, hp2, hk2⟩ := build_blocks_inv inds k ids hm Y hy
    have e1 : p1 = pX := assoc_unique inds hnd X p1 pX hp1 hX
    have e2 : p2 = pY := assoc_unique inds hnd Y p2 pY hp2 hY
    subst e1
    subst e2
    exact hne (blocking_key_surname (hk1.trans hk2.symm))
  exact ⟨main A B pa pb hA hB hdiff, main B A pb pa hB hA (Ne.symm hdiff)⟩

def wInds : List (Str × Person) :=
  [("@I1@".toList, personOfSurname ("smith".toList) ("john".toList)),
   ("@I2@".toList, personOfSurname ("jones".toList) ("mary".toList))]

/-- Witness for C6: a Smith and a Jones are never paired, under the default
max_pairs value. -/
theorem C6_blocking_exclusivity_witness :
    ("@I1@".toList, "@I2@".toList) ∉
      generate_block_pairs (build_individual_blocks wInds) 200000 ∧
    ("@I2@".toList, "@I1@".toList) ∉
      generate_block_pairs (build_individual_blocks wInds) 200000 :=
  C6_blocking_exclusivity wInds (by decide) ("@I1@".toList) ("@I2@".toList)
    (personOfSurname ("smith".toList) ("john".toList))
    (personOfSurname ("jones".toList) ("mary".toList)) 200000
    (by decide) (by decide) (by decide) (by decide) (by decide)

/-!
Merge decision logic (source lines 801-871). Candidate pairs, the score map
keyed by the string "id1|id2", and the per-cluster decision.
-/

/-- A scored candidate pair, as read by `build_merge_plan`
(`c.get("id1")`, `c.get("id2")`, `float(c.get("score", 0.0))`); a missing id
and an empty-string id are both falsy, modelled as the empty string. -/
structure Cand where
  id1 : Str
  id2 : Str
  score : ℚ
deriving DecidableEq

/-- Python dict lookup (`m.get(k)`). -/
def alookup {β : Type} : List (Str × β) → Str → Option β
  | [], _ => none
  | (k', v) :: rest, k => if k' = k then some v else alookup rest k

/-- Python dict assignment `m[k] = v`: update in place, else append. -/
def dictSet {β : Type} : List (Str × β) → Str → β → List (Str × β)
  | [], k, v => [(k, v)]
  | (k', v') :: rest, k, v =>
    if k' = k then (k, v) :: rest else (k', v') :: dictSet rest k v

/-- Python `m.setdefault(k, v)`: append only when the key is absent. -/
def dictSetdefault {β : Type} (m : List (Str × β)) (k : Str) (v : β) :
    List (Str × β) :=
  if (alookup m k).isSome then m else m ++ [(k, v)]

/-- The f-string key `f"{a}|{b}"`. -/
def barJoin (a b : Str) : Str := a ++ '|' :: b

/-- The score map built by `build_merge_plan`: each candidate with truthy ids
is entered under both key orders (later candidates overwrite earlier ones). -/
def build_score_map (cands : List Cand) : List (Str × ℚ) :=
  cands.foldl
    (fun m c =>
      if c.id1 = [] ∨ c.id2 = [] then m
      else dictSet (dictSet m (barJoin c.id1 c.id2) c.score) (barJoin c.id2 c.id1) c.score)
    []

/-- Python `min` over a nonempty list (the empty case is unreachable behind
the source's `if not pair_scores` guard). -/
def pyMin : List ℚ → ℚ
  | [] => 0
  | x :: rest => rest.foldl min x

/-- Python `max` over a nonempty list. -/
def pyMax : List ℚ → ℚ
  | [] => 0
  | x :: rest => rest.foldl max x

/-- The dictionary returned by `decide_cluster_merge`; `scores` carries the
`min_score` / `max_score` / `pair_scores` keys of the fully scored branch. -/
structure Decision where
  cid : Str
  action : Str
  members : List Str
  scores : Option (ℚ × ℚ × List ℚ)
deriving DecidableEq

/-- Source `decide_cluster_merge`. -/
def decide_cluster_merge (cid : Str) (members : List Str)
    (score_map : List (Str × ℚ)) (auto_thresh review_thresh : ℚ) : Decision :=
  if members.length = 1 then
    { cid := cid, action := "no_merge".toList, members := members, scores := none }
  else
    let pair_scores :=
      (pairsOfList members).map (fun q => (alookup score_map (barJoin q.1 q.2)).getD 0)
    if pair_scores = [] then
      { cid := cid, action := "no_merge".toList, members := members, scores := none }
    else
      let min_s := pyMin pair_scores
      let max_s := pyMax pair_scores
      let action :=
        if auto_thresh ≤ min_s then "auto_merge".toList
        else if review_thresh ≤ min_s then "review".toList
        else "no_merge".toList
      { cid := cid, action := action, members := members,
        scores := some (min_s, max_s, pair_scores) }

/-- Source `build_merge_plan`: one decision per cluster (clusters form a
dict, so cluster ids are unique and the plan is the image of the cluster
map). -/
def build_merge_plan (clusters : List (Str × List Str)) (cands : List Cand)
    (auto_thresh review_thresh : ℚ) : List (Str × Decision) :=
  clusters.map
    (fun c => (c.1, decide_cluster_merge c.1 c.2 (build_score_map cands) auto_thresh review_thresh))

/-!
The claim-side reading of the merge decision: the score of an unordered
member pair is the score of the last candidate whose (truthy) ids form that
pair, or 0 when the pair is absent from the candidate set; the decision
thresholds the minimum over all member pairs. These definitions follow the
claim's words and are compared with the embedded code.
-/

/-- Score the claim assigns to the unordered pair `{a, b}`: the last matching
candidate's score, else 0. -/
def claimPairScore (cands : List Cand) (a b : Str) : ℚ :=
  cands.foldl
    (fun acc c =>
      if c.id1 ≠ [] ∧ c.id2 ≠ [] ∧
          ((c.id1 = a ∧ c.id2 = b) ∨ (c.id1 = b ∧ c.id2 = a)) then c.score
      else acc)
    0

/-- The claim's minimum pairwise score over all unordered member pairs. -/
def claimMinScore (members : List Str) (cands : List Cand) : ℚ :=
  pyMin ((pairsOfList members).map (fun q => claimPairScore cands q.1 q.2))

/-- The claim's decision rule: size 1 means no_merge; size at least 2
thresholds the minimum pairwise score. -/
def claimAction (members : List Str) (cands : List Cand)
    (auto_thresh review_thresh : ℚ) : Str :=
  if members.length = 1 then "no_merge".toList
  else if 2 ≤ members.length then
    if auto_thresh ≤ claimMinScore members cands then "auto_merge".toList
    else if review_thresh ≤ claimMinScore members cands then "review".toList
    else "no_merge".toList
  else "no_merge".toList

lemma alookup_dictSet {β : Type} (m : List (Str × β)) (k k' : Str) (v : β) :
    alookup (dictSet m k v) k' = if k = k' then some v else alookup m k' := by
  induction m with
  | nil => simp [dictSet, alookup]
  | cons kv rest ih =>
    obtain ⟨k0, v0⟩ := kv
    by_cases h0 : k0 = k
    · subst h0
      simp only [dictSet, if_pos rfl, alookup]
      split_ifs with h1 <;> simp_all [alookup]
    · simp only [dictSet, if_neg h0, alookup]
      split_ifs with h1 <;> simp_all [alookup]

lemma barJoin_inj {a b c d : Str} (ha : ('|' : Char) ∉ a) (hc : ('|' : Char) ∉ c) :
    barJoin a b = barJoin c d ↔ a = c ∧ b = d := by
  constructor
  · intro h
    have h1 : a = c := append_bar_inj a c b d ha hc h
    subst h1
    refine ⟨rfl, ?_⟩
    have := List.append_cancel_left h
    exact (List.cons.injEq .. |>.mp this).2
  · rintro ⟨rfl, rfl⟩
    rfl

lemma score_map_lookup (a b : Str) (ha : ('|' : Char) ∉ a) (hb : ('|' : Char) ∉ b) :
    ∀ (cands : List Cand) (m : List (Str × ℚ)) (v : ℚ),
      (∀ c ∈ cands, ('|' : Char) ∉ c.id1 ∧ ('|' : Char) ∉ c.id2) →
      (alookup m (barJoin a b)).getD 0 = v →
      (alookup
          (cands.foldl
            (fun m c =>
              if c.id1 = [] ∨ c.id2 = [] then m
              else dictSet (dictSet m (barJoin c.id1 c.id2) c.score)
                (barJoin c.id2 c.id1) c.score)
            m)
          (barJoin a b)).getD 0 =
        cands.foldl
          (fun acc c =>
            if c.id1 ≠ [] ∧ c.id2 ≠ [] ∧
                ((c.id1 = a ∧ c.id2 = b) ∨ (c.id1 = b ∧ c.id2 = a)) then c.score
            else acc)
          v := by
  intro cands
  induction cands with
  | nil => intro m v _ hmv; simpa using hmv
  | cons c rest ih =>
    intro m v hbar hmv
    simp only [List.foldl_cons]
    have hc := hbar c (List.mem_cons_self _ _)
    by_cases hskip : c.id1 = [] ∨ c.id2 = []
    · rw [if_pos hskip]
      have : ¬(c.id1 ≠ [] ∧ c.id2 ≠ [] ∧
          ((c.id1 = a ∧ c.id2 = b) ∨ (c.id1 = b ∧ c.id2 = a))) := by
        rcases hskip with h | h <;> simp [h]
      rw [if_neg this]
      exact ih m v (fun x hx => hbar x (List.mem_cons_of_mem _ hx)) hmv
    · rw [if_neg hskip]
      push_neg at hskip
      by_cases hmatch : (c.id1 = a ∧ c.id2 = b) ∨ (c.id1 = b ∧ c.id2 = a)
      · rw [if_pos ⟨hskip.1, hskip.2, hmatch⟩]
        refine ih _ c.score (fun x hx => hbar x (List.mem_cons_of_mem _ hx)) ?_
        rcases hmatch with ⟨h1, h2⟩ | ⟨h1, h2⟩
        · rw [alookup_dictSet, alookup_dictSet]
          subst h1; subst h2
          by_cases hrev : barJoin c.id2 c.id1 = barJoin c.id1 c.id2
          · rw [if_pos hrev]; rfl
          · rw [if_neg hrev, if_pos rfl]; rfl
        · subst h1; subst h2
          rw [alookup_dictSet, if_pos rfl]
          rfl
      · rw [if_neg (by simp [hmatch])]
        refine ih _ v (fun x hx => hbar x (List.mem_cons_of_mem _ hx)) ?_
        rw [alookup_dictSet, alookup_dictSet]
        have hne1 : ¬(barJoin c.id2 c.id1 = barJoin a b) := by
          rw [barJoin_inj hc.2 ha]
          intro ⟨h1, h2⟩
          exact hmatch (Or.inr ⟨h2, h1⟩)
        have hne2 : ¬(barJoin c.id1 c.id2 = barJoin a b) := by
          rw [barJoin_inj hc.1 ha]
          intro ⟨h1, h2⟩
          exact hmatch (Or.inl ⟨h1, h2⟩)
        rw [if_neg hne1, if_neg hne2]
        exact hmv

lemma decide_cluster_merge_spec (cid : Str) (members : List Str) (cands : List Cand)
    (auto review : ℚ)
    (hm : ∀ x ∈ members, ('|' : Char) ∉ x)
    (hc : ∀ c ∈ cands, ('|' : Char) ∉ c.id1 ∧ ('|' : Char) ∉ c.id2) :
    (decide_cluster_merge cid members (build_score_map cands) auto review).action =
      claimAction members cands auto review ∧
    (decide_cluster_merge cid members (build_score_map cands) auto review).members =
      members := by
  unfold decide_cluster_merge claimAction
  by_cases h1 : members.length = 1
  · simp [h1]
  · rw [if_neg h1, if_neg h1]
    match members, h1 with
    | [], _ => simp [pairsOfList]
    | [a], h1 => simp at h1
    | a :: b :: rest, _ =>
      have hlist : (pairsOfList (a :: b :: rest)).map
            (fun q => (alookup (build_score_map cands) (barJoin q.1 q.2)).getD 0) =
          (pairsOfList (a :: b :: rest)).map (fun q => claimPairScore cands q.1 q.2) := by
        apply List.map_congr_left
        intro q hq
        have hmem := mem_pairsOfList q.1 q.2 (a :: b :: rest) hq
        simpa [build_score_map, claimPairScore] using
          score_map_lookup q.1 q.2 (hm _ hmem.1) (hm _ hmem.2) cands [] 0 hc rfl
      have hne : (pairsOfList (a :: b :: rest)).map
          (fun q => (alookup (build_score_map cands) (barJoin q.1 q.2)).getD 0) ≠ [] := by
        simp [pairsOfList]
      rw [if_neg hne, if_pos (by simp)]
      unfold claimMinScore
      rw [← hlist]
      simp

/-- C3 (amended): for clusters and candidates whose ids are free of the "|"
delimiter, build_merge_plan decides exactly as the claim states: size-1
clusters get no_merge, and larger clusters threshold the minimum over all
unordered member pairs, with pairs absent from the candidate set counted as
score 0. (Without the delimiter restriction the pair lookup key "a|b" can
collide with a different candidate pair; see the counterexample.) -/
theorem C3_merge_decision_amended (clusters : List (Str × List Str)) (cands : List Cand)
    (auto review : ℚ)
    (hm : ∀ c ∈ clusters, ∀ x ∈ c.2, ('|' : Char) ∉ x)
    (hc : ∀ c ∈ cands, ('|' : Char) ∉ c.id1 ∧ ('|' : Char) ∉ c.id2) :
    ∀ (cid : Str) (dec : Decision),
      (cid, dec) ∈ build_merge_plan clusters cands auto review →
      ∃ members, (cid, members) ∈ clusters ∧ dec.members = members ∧
        dec.action = claimAction members cands auto review := by
  intro cid dec h
  unfold build_merge_plan at h
  obtain ⟨⟨cid', members⟩, hmem, heq⟩ := List.mem_map.mp h
  obtain ⟨h1, h2⟩ := Prod.mk.injEq .. |>.mp heq
  subst h1
  subst h2
  obtain ⟨ha, hb⟩ := decide_cluster_merge_spec cid' members cands auto review
    (hm _ hmem) hc
  exact ⟨members, hmem, hb, ha⟩

def ccClusters : List (Str × List Str) := [("C1".toList, ["x|y".toList, "z".toList])]

def ccCands : List Cand := [{ id1 := "x".toList, id2 := "y|z".toList, score := mkRat 95 100 }]

/-- Counterexample to C3 as stated: the cluster contains the members "x|y"
and "z", a pair absent from the candidate set (whose only candidate pairs
"x" with "y|z"), so the claim's minimum is 0 and its decision no_merge; but
the code's key "x|y|z" collides with the candidate's key, so the plan says
auto_merge. -/
theorem C3_merge_decision_counterexample :
    (∃ dec, ("C1".toList, dec) ∈
        build_merge_plan ccClusters ccCands (mkRat 92 100) (mkRat 80 100) ∧
      dec.action = "auto_merge".toList) ∧
    claimAction ["x|y".toList, "z".toList] ccCands (mkRat 92 100) (mkRat 80 100) =
      "no_merge".toList ∧
    ("auto_merge".toList : Str) ≠ "no_merge".toList := by
  refine ⟨⟨decide_cluster_merge ("C1".toList) ["x|y".toList, "z".toList]
    (build_score_map ccCands) (mkRat 92 100) (mkRat 80 100),
    List.mem_singleton.mpr rfl, ?_⟩, by decide, by decide⟩
  decide

def wC3Clusters : List (Str × List Str) := [("C1".toList, ["@I1@".toList, "@I2@".toList])]

def wC3Cands : List Cand :=
  [{ id1 := "@I1@".toList, id2 := "@I2@".toList, score := mkRat 95 100 }]

def wC3Dec : Decision :=
  decide_cluster_merge ("C1".toList) ["@I1@".toList, "@I2@".toList]
    (build_score_map wC3Cands) (mkRat 92 100) (mkRat 80 100)

/-- Witness for the amended C3 on delimiter-free ids. -/
theorem C3_merge_decision_amended_witness :
    ∃ members, ("C1".toList, members) ∈ wC3Clusters ∧ wC3Dec.members = members ∧
      wC3Dec.action = claimAction members wC3Cands (mkRat 92 100) (mkRat 80 100) :=
  C3_merge_decision_amended wC3Clusters wC3Cands (mkRat 92 100) (mkRat 80 100)
    (by decide) (by decide) ("C1".toList) wC3Dec (List.mem_singleton.mpr rfl)

/-!
Merge application (source lines 878-1015): `apply_merges_to_registry`,
`merge_individual_group` and `rewrite_families`.
-/

/-- A family dictionary as `rewrite_families` reads it: the `husband`, `wife`
and `children` keys. A key that is absent, or whose value is `None` (which
`id_map.get(v, v)` maps to itself) is `none`; `children` values that are not
lists are likewise left untouched by the source and modelled as `none`. -/
structure Fam where
  husband : Option Str := none
  wife : Option Str := none
  children : Option (List Str) := none
deriving DecidableEq

/-- A merge-plan entry as `apply_merges_to_registry` reads it:
`info.get("members", [])` and `info.get("action", "no_merge")`. -/
structure PlanInfo where
  members : List Str := []
  action : Str := "no_merge".toList
deriving DecidableEq

/-- The registry slice consumed by merge application. -/
structure ERRegistry where
  individuals : List (Str × Person) := []
  families : List (Str × Fam) := []
deriving DecidableEq

/-- The enriched registry returned by `apply_merges_to_registry` (the other
registry keys are carried through `dict(registry)` unchanged). -/
structure ERRegistryOut where
  individuals : List (Str × Person)
  families : List (Str × Fam)
  id_map : List (Str × Str)
deriving DecidableEq

/-- Python `del m[k]` (no-op when the key is absent, matching the guarded
`if m in new_individuals: del new_individuals[m]`). -/
def dictDelete {β : Type} (m : List (Str × β)) (k : Str) : List (Str × β) :=
  m.filter (fun kv => kv.1 ≠ k)

/-- Source `merge_individual_group`: conservative, additive merge of the
member records. A `name_block` key present with value `None` counts as
present in Python; such records coincide with block-less ones at every use
site, so `Option` presence is the faithful check here. -/
def merge_individual_group (new_id : Str) (members : List Str)
    (individuals : List (Str × Person)) : Person :=
  members.foldl
    (fun merged mid =>
      match alookup individuals mid with
      | none => merged
      | some p =>
        let merged :=
          match p.names with
          | some ns => { merged with names := some ((merged.names.getD []) ++ ns) }
          | none => merged
        let merged :=
          if p.name_block.isSome ∧ merged.name_block = none then
            { merged with name_block := p.name_block }
          else merged
        let merged := { merged with events := merged.events ++ p.events }
        let merged :=
          if merged.gender = none ∧ p.gender ≠ none then
            { merged with gender := p.gender }
          else merged
        merged)
    { id := some new_id, source_ids := some members, names := some [],
      events := [], gender := none }

/-- Pointer substitution for one family (source `rewrite_families` body):
`id_map.get(v, v)` on husband and wife, elementwise on children. -/
def rewriteFam (id_map : List (Str × Str)) (f : Fam) : Fam :=
  { husband := f.husband.map (fun h => (alookup id_map h).getD h)
    wife := f.wife.map (fun w => (alookup id_map w).getD w)
    children := f.children.map (fun cs => cs.map (fun c => (alookup id_map c).getD c)) }

/-- Source `rewrite_families`. -/
def rewrite_families (families : List (Str × Fam)) (id_map : List (Str × Str)) :
    List (Str × Fam) :=
  families.map (fun kv => (kv.1, rewriteFam id_map kv.2))

/-- One merge-plan entry of step 3 of `apply_merges_to_registry`. The
source's member loop interleaves `id_map[m] = new_id` with the guarded
delete from `new_individuals`; the two maps are disjoint state, so the loop
is written as one fold per map. -/
def applyPlanStep (individuals : List (Str × Person))
    (st : List (Str × Person) × List (Str × Str)) (entry : Str × PlanInfo) :
    List (Str × Person) × List (Str × Str) :=
  let members := entry.2.members
  if entry.2.action = "auto_merge".toList ∧ 2 ≤ members.length then
    let new_id := 'U' :: entry.1
    let unified := merge_individual_group new_id members individuals
    (members.foldl (fun ni m => dictDelete ni m) (dictSet st.1 new_id unified),
     members.foldl (fun im m => dictSet im m new_id) st.2)
  else
    (st.1, members.foldl (fun im m => dictSetdefault im m m) st.2)

/-- Source `apply_merges_to_registry`. -/
def apply_merges_to_registry (registry : ERRegistry)
    (merge_plan : List (Str × PlanInfo)) : ERRegistryOut :=
  let individuals := registry.individuals
  let families := registry.families
  let new_individuals := individuals
  let id_map := individuals.map (fun kv => (kv.1, kv.1))
  if merge_plan = [] then
    { individuals := new_individuals
      families := rewrite_families families id_map
      id_map := id_map }
  else
    let st := merge_plan.foldl (applyPlanStep individuals) (new_individuals, id_map)
    { individuals := st.1
      families := rewrite_families families st.2
      id_map := st.2 }

lemma alookup_map_self (inds : List (Str × Person)) (iid : Str) :
    alookup (inds.map (fun kv => (kv.1, kv.1))) iid =
      if (alookup inds iid).isSome then some iid else none := by
  induction inds with
  | nil => simp [alookup]
  | cons kv rest ih =>
    by_cases h : kv.1 = iid
    · simp [alookup, h]
    · simp only [List.map_cons, alookup, if_neg h, ih]

lemma alookup_append {β : Type} (m m' : List (Str × β)) (k : Str) :
    alookup (m ++ m') k = ((alookup m k).rec (alookup m' k) (fun v => some v)) := by
  induction m with
  | nil => simp [alookup]
  | cons kv rest ih =>
    by_cases h : kv.1 = k
    · simp [alookup, h]
    · simp only [List.cons_append, alookup, if_neg h, List.append_eq, ih]

lemma dictSetdefault_of_isSome {β : Type} {m : List (Str × β)} {k : Str} (v : β)
    (h : (alookup m k).isSome) : dictSetdefault m k v = m := by
  simp [dictSetdefault, h]

lemma alookup_dictSetdefault_ne {β : Type} (m : List (Str × β)) {k k' : Str} (v : β)
    (h : k ≠ k') : alookup (dictSetdefault m k v) k' = alookup m k' := by
  unfold dictSetdefault
  split_ifs with hs
  · rfl
  · rw [alookup_append]
    cases hx : alookup m k' with
    | some w => rfl
    | none => simp [alookup, h]

lemma setdefault_fold_preserves (p : Str) (v : Str) :
    ∀ (ms : List Str) (im : List (Str × Str)), alookup im p = some v →
      alookup (ms.foldl (fun im m => dictSetdefault im m m) im) p = some v := by
  intro ms
  induction ms with
  | nil => intro im h; exact h
  | cons m rest ih =>
    intro im h
    simp only [List.foldl_cons]
    apply ih
    by_cases hm : m = p
    · rw [hm, dictSetdefault_of_isSome _ (by simp [h])]
      exact h
    · rw [alookup_dictSetdefault_ne _ _ hm]
      exact h

lemma set_fold_other (p : Str) (nid : Str) :
    ∀ (ms : List Str) (im : List (Str × Str)), p ∉ ms →
      alookup (ms.foldl (fun im m => dictSet im m nid) im) p = alookup im p := by
  intro ms
  induction ms with
  | nil => intro im _; rfl
  | cons m rest ih =>
    intro im hp
    simp only [List.foldl_cons]
    rw [ih _ (fun h => hp (List.mem_cons_of_mem _ h)), alookup_dictSet,
      if_neg (fun h => hp (by rw [← h]; exact List.mem_cons_self _ _))]

lemma set_fold_member (p : Str) (nid : Str) :
    ∀ (ms : List Str) (im : List (Str × Str)),
      (p ∈ ms ∨ alookup im p = some nid) →
      alookup (ms.foldl (fun im m => dictSet im m nid) im) p = some nid := by
  intro ms
  induction ms with
  | nil =>
    intro im h
    rcases h with h | h
    · simp at h
    · exact h
  | cons m rest ih =>
    intro im h
    simp only [List.foldl_cons]
    by_cases hm : p ∈ rest
    · exact ih _ (Or.inl hm)
    · apply ih
      refine Or.inr ?_
      rcases h with h | h
      · rcases List.mem_cons.mp h with h | h
        · rw [alookup_dictSet, if_pos (by rw [h])]
        · exact absurd h hm
      · rw [alookup_dictSet]
        split_ifs with hk
        · rfl
        · exact h

lemma setdefault_fold_isSome (p : Str) :
    ∀ (ms : List Str) (im : List (Str × Str)), (alookup im p).isSome →
      (alookup (ms.foldl (fun im m => dictSetdefault im m m) im) p).isSome := by
  intro ms
  induction ms with
  | nil => intro im h; exact h
  | cons m rest ih =>
    intro im h
    simp only [List.foldl_cons]
    apply ih
    by_cases hm : m = p
    · subst hm
      rw [dictSetdefault_of_isSome _ h]
      exact h
    · rwa [alookup_dictSetdefault_ne _ _ hm]

lemma set_fold_isSome (p : Str) (nid : Str) :
    ∀ (ms : List Str) (im : List (Str × Str)), (alookup im p).isSome →
      (alookup (ms.foldl (fun im m => dictSet im m nid) im) p).isSome := by
  intro ms
  induction ms with
  | nil => intro im h; exact h
  | cons m rest ih =>
    intro im h
    simp only [List.foldl_cons]
    apply ih
    rw [alookup_dictSet]
    split_ifs with hk
    · rfl
    · exact h

/-- One plan entry never removes an id_map key. -/
lemma applyPlanStep_isSome (individuals : List (Str × Person)) (p : Str)
    (st : List (Str × Person) × List (Str × Str)) (entry : Str × PlanInfo)
    (h : (alookup st.2 p).isSome) :
    (alookup (applyPlanStep individuals st entry).2 p).isSome := by
  simp only [applyPlanStep]
  split_ifs with hc
  · exact set_fold_isSome p _ _ _ h
  · exact setdefault_fold_isSome p _ _ h

/-- A plan entry whose effective auto-merge members avoid `p` leaves `p`'s
binding unchanged in value. -/
lemma applyPlanStep_preserves (individuals : List (Str × Person)) (p v : Str)
    (st : List (Str × Person) × List (Str × Str)) (entry : Str × PlanInfo)
    (h : alookup st.2 p = some v)
    (hp : entry.2.action = "auto_merge".toList → 2 ≤ entry.2.members.length →
      p ∉ entry.2.members) :
    alookup (applyPlanStep individuals st entry).2 p = some v := by
  simp only [applyPlanStep]
  split_ifs with hc
  · rw [set_fold_other p _ _ _ (hp hc.1 hc.2)]
    exact h
  · exact setdefault_fold_preserves p v _ _ h

lemma applyPlan_fold_isSome (individuals : List (Str × Person)) (p : Str) :
    ∀ (plan : List (Str × PlanInfo)) (st : List (Str × Person) × List (Str × Str)),
      (alookup st.2 p).isSome →
      (alookup (plan.foldl (applyPlanStep individuals) st).2 p).isSome := by
  intro plan
  induction plan with
  | nil => intro st h; exact h
  | cons e rest ih =>
    intro st h
    exact ih _ (applyPlanStep_isSome individuals p st e h)

lemma applyPlan_fold_preserves (individuals : List (Str × Person)) (p v : Str) :
    ∀ (plan : List (Str × PlanInfo)) (st : List (Str × Person) × List (Str × Str)),
      alookup st.2 p = some v →
      (∀ e ∈ plan, e.2.action = "auto_merge".toList → 2 ≤ e.2.members.length →
        p ∉ e.2.members) →
      alookup (plan.foldl (applyPlanStep individuals) st).2 p = some v := by
  intro plan
  induction plan with
  | nil => intro st h _; exact h
  | cons e rest ih =>
    intro st h hp
    exact ih _ (applyPlanStep_preserves individuals p v st e h (hp e (List.mem_cons_self _ _)))
      (fun e' he' => hp e' (List.mem_cons_of_mem _ he'))

lemma apply_merges_id_map_eq (registry : ERRegistry) (plan : List (Str × PlanInfo)) :
    (apply_merges_to_registry registry plan).id_map =
      (plan.foldl (applyPlanStep registry.individuals)
        (registry.individuals, registry.individuals.map (fun kv => (kv.1, kv.1)))).2 := by
  cases plan <;> rfl

lemma apply_merges_families_eq (registry : ERRegistry) (plan : List (Str × PlanInfo)) :
    (apply_merges_to_registry registry plan).families =
      rewrite_families registry.families (apply_merges_to_registry registry plan).id_map := by
  cases plan <;> rfl

/-- After the whole plan is applied, a member of an effective auto_merge
cluster (one of size at least 2, in no other such cluster) is bound to that
cluster's synthetic pointer `U<cid>` in the id map. -/
lemma id_map_member_target (registry : ERRegistry) (plan : List (Str × PlanInfo))
    (hnd : (plan.map Prod.fst).Nodup)
    (cid : Str) (info : PlanInfo) (hentry : (cid, info) ∈ plan)
    (hact : info.action = "auto_merge".toList) (hlen : 2 ≤ info.members.length)
    (m : Str) (hm : m ∈ info.members)
    (huniq : ∀ cid' info', (cid', info') ∈ plan → cid' ≠ cid →
      info'.action = "auto_merge".toList → 2 ≤ info'.members.length →
      m ∉ info'.members) :
    alookup (apply_merges_to_registry registry plan).id_map m = some ('U' :: cid) := by
  rw [apply_merges_id_map_eq]
  obtain ⟨pre, post, rfl⟩ := List.append_of_mem hentry
  have hcidpost : ∀ e ∈ post, e.1 ≠ cid := by
    rw [List.map_append, List.map_cons] at hnd
    have h2 := (List.nodup_append.mp hnd).2.1
    have h3 := (List.nodup_cons.mp h2).1
    intro e he heq
    exact h3 (by rw [← heq]; exact List.mem_map.mpr ⟨e, he, rfl⟩)
  rw [List.foldl_append, List.foldl_cons]
  apply applyPlan_fold_preserves
  · simp only [applyPlanStep]
    rw [if_pos ⟨hact, hlen⟩]
    exact set_fold_member m _ _ _ (Or.inl hm)
  · intro e he hae hle
    exact huniq e.1 e.2
      (List.mem_append.mpr (Or.inr (List.mem_cons_of_mem _ he)))
      (hcidpost e he) hae hle

/-- C5: id-map totality. The id map of apply_merges_to_registry covers every
individual pointer of the input (no omissions); individuals in no effective
auto_merge cluster are self-mapped; members of an auto_merge cluster of size
at least 2 (and of no other such cluster) map to that cluster's synthetic
pointer. -/
theorem C5_id_map_totality (registry : ERRegistry) (plan : List (Str × PlanInfo))
    (hnd : (plan.map Prod.fst).Nodup) :
    (∀ iid : Str, (alookup registry.individuals iid).isSome →
      (alookup (apply_merges_to_registry registry plan).id_map iid).isSome)
  ∧ (∀ iid : Str, (alookup registry.individuals iid).isSome →
      (∀ e ∈ plan, e.2.action = "auto_merge".toList → 2 ≤ e.2.members.length →
        iid ∉ e.2.members) →
      alookup (apply_merges_to_registry registry plan).id_map iid = some iid)
  ∧ (∀ cid info, (cid, info) ∈ plan → info.action = "auto_merge".toList →
      2 ≤ info.members.length → ∀ m ∈ info.members,
      (∀ cid' info', (cid', info') ∈ plan → cid' ≠ cid →
        info'.action = "auto_merge".toList → 2 ≤ info'.members.length →
        m ∉ info'.members) →
      alookup (apply_merges_to_registry registry plan).id_map m =
        some ('U' :: cid)) := by
  refine ⟨?_, ?_, ?_⟩
  · intro iid h
    rw [apply_merges_id_map_eq]
    apply applyPlan_fold_isSome
    rw [alookup_map_self registry.individuals iid, if_pos h]
    rfl
  · intro iid h hno
    rw [apply_merges_id_map_eq]
    apply applyPlan_fold_preserves
    · rw [alookup_map_self registry.individuals iid, if_pos h]
    · exact hno
  · intro cid info hentry hact hlen m hm huniq
    exact id_map_member_target registry plan hnd cid info hentry hact hlen m hm huniq

lemma alookup_rewrite_families (fams : List (Str × Fam)) (im : List (Str × Str))
    (fid : Str) :
    alookup (rewrite_families fams im) fid = (alookup fams fid).map (rewriteFam im) := by
  induction fams with
  | nil => simp [rewrite_families, alookup]
  | cons kv rest ih =>
    by_cases h : kv.1 = fid
    · simp [rewrite_families, alookup, h]
    · simp only [rewrite_families, List.map_cons, alookup, if_neg h]
      exact ih

/-- C4: referential integrity after merge application. Every family field
whose pointer is a member of an effective auto_merge cluster is rewritten to
the cluster's synthetic pointer (the id_map image), never left stale. -/
theorem C4_referential_integrity (registry : ERRegistry) (plan : List (Str × PlanInfo))
    (hnd : (plan.map Prod.fst).Nodup)
    (cid : Str) (info : PlanInfo) (hentry : (cid, info) ∈ plan)
    (hact : info.action = "auto_merge".toList) (hlen : 2 ≤ info.members.length)
    (p : Str) (hp : p ∈ info.members)
    (huniq : ∀ cid' info', (cid', info') ∈ plan → cid' ≠ cid →
      info'.action = "auto_merge".toList → 2 ≤ info'.members.length →
      p ∉ info'.members)
    (fid : Str) (fam : Fam) (hfam : alookup registry.families fid = some fam) :
    ∃ fam', alookup (apply_merges_to_registry registry plan).families fid = some fam' ∧
      (fam.husband = some p → fam'.husband = some ('U' :: cid)) ∧
      (fam.wife = some p → fam'.wife = some ('U' :: cid)) ∧
      (∀ cs, fam.children = some cs → ∀ i : Nat, cs[i]? = some p →
        ∃ cs', fam'.children = some cs' ∧ cs'[i]? = some ('U' :: cid)) := by
  have htgt := id_map_member_target registry plan hnd cid info hentry hact hlen p hp huniq
  refine ⟨rewriteFam (apply_merges_to_registry registry plan).id_map fam, ?_, ?_, ?_, ?_⟩
  · rw [apply_merges_families_eq, alookup_rewrite_families, hfam]
    rfl
  · intro hh
    simp [rewriteFam, hh, htgt]
  · intro hh
    simp [rewriteFam, hh, htgt]
  · intro cs hcs i hi
    refine ⟨cs.map (fun c => (alookup (apply_merges_to_registry registry plan).id_map c).getD c),
      by simp [rewriteFam, hcs], ?_⟩
    rw [List.getElem?_map, hi]
    simp [htgt]

def w45Fam : Fam :=
  { husband := some ("@I1@".toList), wife := some ("@I3@".toList),
    children := some ["@I2@".toList] }

def w45Reg : ERRegistry :=
  { individuals := [("@I1@".toList, blankPerson), ("@I2@".toList, blankPerson),
      ("@I3@".toList, blankPerson)]
    families := [("@F1@".toList, w45Fam)] }

def w45Plan : List (Str × PlanInfo) :=
  [("C1".toList,
    { members := ["@I1@".toList, "@I2@".toList], action := "auto_merge".toList })]

/-- Witness for C5: with three individuals and one auto_merge cluster of the
first two, the id map covers the third individual, self-maps it, and maps a
cluster member to the synthetic pointer UC1. -/
theorem C5_id_map_totality_witness :
    (alookup (apply_merges_to_registry w45Reg w45Plan).id_map ("@I3@".toList)).isSome ∧
    alookup (apply_merges_to_registry w45Reg w45Plan).id_map ("@I3@".toList) =
      some ("@I3@".toList) ∧
    alookup (apply_merges_to_registry w45Reg w45Plan).id_map ("@I1@".toList) =
      some ('U' :: "C1".toList) := by
  obtain ⟨h1, h2, h3⟩ := C5_id_map_totality w45Reg w45Plan (by decide)
  refine ⟨h1 _ (by decide), h2 _ (by decide) ?_, h3 ("C1".toList)
    ({ members := ["@I1@".toList, "@I2@".toList], action := "auto_merge".toList })
    (by decide) (by decide) (by decide) _ (by decide) ?_⟩
  · intro e he _ _
    rw [List.mem_singleton.mp he]
    decide
  · intro cid' info' hmem hne _ _
    exact absurd (congrArg Prod.fst (List.mem_singleton.mp hmem)) hne

/-- Witness for C4: the family's husband and child pointers that belong to
the auto_merge cluster are rewritten to UC1. -/
theorem C4_referential_integrity_witness :
    ∃ fam', alookup (apply_merges_to_registry w45Reg w45Plan).families ("@F1@".toList) =
        some fam' ∧
      (w45Fam.husband = some ("@I1@".toList) →
        fam'.husband = some ('U' :: "C1".toList)) ∧
      (w45Fam.wife = some ("@I1@".toList) →
        fam'.wife = some ('U' :: "C1".toList)) ∧
      (∀ cs, w45Fam.children = some cs → ∀ i : Nat, cs[i]? = some ("@I1@".toList) →
        ∃ cs', fam'.children = some cs' ∧ cs'[i]? = some ('U' :: "C1".toList)) := by
  refine C4_referential_integrity w45Reg w45Plan (by decide) ("C1".toList)
    ({ members := ["@I1@".toList, "@I2@".toList], action := "auto_merge".toList })
    (by decide) (by decide) (by decide) ("@I1@".toList) (by decide) ?_
    ("@F1@".toList) w45Fam (by decide)
  intro cid' info' hmem hne _ _
  exact absurd (congrArg Prod.fst (List.mem_singleton.mp hmem)) hne

/-!
Relationship linker (source registry/link_entities.py). The linker resolves
pointers into object references; entity objects live in pointer-keyed dict
registries, so object references are modelled by registry keys. Only the
fields the pass reads or writes are modelled: the cleared-and-rebuilt derived
fields, and the family's husband/wife/children pointers (never mutated).
-/

/-- The derived back-reference state of an individual (the linker reads no
other individual field; back-referenced family objects are their keys). -/
structure LIndividual where
  spouse_in_families : List Str := []
  child_in_families : List Str := []
deriving DecidableEq

/-- A family: base pointer fields plus the derived object-reference fields
rebuilt by the linker (referenced individual objects are their keys). -/
structure LFamily where
  husband : Option Str := none
  wife : Option Str := none
  children : List Str := []
  husband_entity : Option Str := none
  wife_entity : Option Str := none
  children_entities : List Str := []
deriving DecidableEq

/-- The registry slice the linker touches. -/
structure LRegistry where
  individuals : List (Str × LIndividual) := []
  families : List (Str × LFamily) := []
deriving DecidableEq

/-- Modelled from the spec: `normalize_pointer` is imported by the linker
from the identity module but is not defined under src/. The spec treats
pointers as opaque, stable identifiers that the linker resolves directly
against registry keys (sections 3 and 4.2), and the linker falls back to the
raw pointer whenever normalization returns a falsy value, so normalization is
modelled as the identity. -/
def normalize_pointer (ptr : Str) : Option Str := some ptr

/-- Source `_norm_ptr`: `None` for falsy pointers, else
`normalize_pointer(ptr) or ptr`. -/
def norm_ptr (ptr : Option Str) : Option Str :=
  match ptr with
  | none => none
  | some s =>
    if s = [] then none
    else
      match normalize_pointer s with
      | some t => if t = [] then some s else some t
      | none => some s

/-- Python assignment to a field of the object stored at `k` (dict keys are
unique, so only the first matching entry exists). -/
def aupdate {β : Type} : List (Str × β) → Str → (β → β) → List (Str × β)
  | [], _, _ => []
  | (k', v) :: rest, k, f =>
    if k' = k then (k', f v) :: rest else (k', v) :: aupdate rest k f

/-- Clearing the derived fields of one family. -/
def clearFam (f : LFamily) : LFamily :=
  { f with husband_entity := none, wife_entity := none, children_entities := [] }

/-- The clearing loops of `link_entities`: empty every derived field. -/
def clearReg (r : LRegistry) : LRegistry :=
  { individuals := r.individuals.map (fun kv => (kv.1, ({} : LIndividual)))
    families := r.families.map (fun kv => (kv.1, clearFam kv.2)) }

/-- Linker state while rebuilding: the individuals and families maps. -/
abbrev LState := List (Str × LIndividual) × List (Str × LFamily)

/-- One husband/wife resolution block of `link_entities`. The two source
blocks are textually identical up to the family field they assign, factored
here over the setter. -/
def resolveSpouse (st : LState) (fkey : Str) (ptr : Option Str)
    (set : LFamily → Option Str → LFamily) : LState :=
  match norm_ptr ptr with
  | none => st
  | some hp =>
    if (alookup st.1 hp).isSome then
      (aupdate st.1 hp
        (fun i => { i with spouse_in_families := i.spouse_in_families ++ [fkey] }),
       aupdate st.2 fkey (fun f => set f (some hp)))
    else st

/-- One iteration of the children resolution loop of `link_entities`. -/
def childStep (fkey : Str) (st : LState) (cptr : Str) : LState :=
  match norm_ptr (some cptr) with
  | none => st
  | some cp =>
    if (alookup st.1 cp).isSome then
      (aupdate st.1 cp
        (fun i => { i with child_in_families := i.child_in_families ++ [fkey] }),
       aupdate st.2 fkey
        (fun f => { f with children_entities := f.children_entities ++ [cp] }))
    else st

/-- The children resolution loop of `link_entities`. -/
def linkChildren (st : LState) (fkey : Str) (children : List Str) : LState :=
  children.foldl (childStep fkey) st

/-- The body of the linker's build loop for one family. The loop reads only
the family's never-mutated pointer fields, so the snapshot taken at iteration
start is faithful. -/
def linkFamily (st : LState) (entry : Str × LFamily) : LState :=
  let st := resolveSpouse st entry.1 entry.2.husband
    (fun f v => { f with husband_entity := v })
  let st := resolveSpouse st entry.1 entry.2.wife
    (fun f v => { f with wife_entity := v })
  linkChildren st entry.1 entry.2.children

/-- Source `link_entities`: clear every derived field, then rebuild the
bidirectional links family by family. -/
def link_entities (r : LRegistry) : LRegistry :=
  let rc := clearReg r
  let st := rc.families.foldl linkFamily (rc.individuals, rc.families)
  { individuals := st.1, families := st.2 }

/-- The base (never-mutated) fields of a family. -/
def famBase (f : LFamily) : Option Str × Option Str × List Str :=
  (f.husband, f.wife, f.children)

/-- The part of the linker state that the rebuild loop never changes:
individual keys and the families' keyed base fields. -/
def lproj (st : LState) : List Str × List (Str × (Option Str × Option Str × List Str)) :=
  (st.1.map Prod.fst, st.2.map (fun kv => (kv.1, famBase kv.2)))

lemma foldl_preserves {α σ γ : Type} (proj : σ → γ) (step : σ → α → σ)
    (hstep : ∀ s a, proj (step s a) = proj s) :
    ∀ (l : List α) (s : σ), proj (l.foldl step s) = proj s := by
  intro l
  induction l with
  | nil => intro s; rfl
  | cons a rest ih =>
    intro s
    rw [List.foldl_cons, ih, hstep]

lemma aupdate_keys {β : Type} (m : List (Str × β)) (k : Str) (f : β → β) :
    (aupdate m k f).map Prod.fst = m.map Prod.fst := by
  induction m with
  | nil => rfl
  | cons kv rest ih =>
    obtain ⟨k', v⟩ := kv
    simp only [aupdate]
    split_ifs with h
    · simp [h]
    · simp [ih]

lemma aupdate_map_snd {β γ : Type} (m : List (Str × β)) (k : Str) (f : β → β)
    (g : β → γ) (hf : ∀ v, g (f v) = g v) :
    (aupdate m k f).map (fun kv => (kv.1, g kv.2)) =
      m.map (fun kv => (kv.1, g kv.2)) := by
  induction m with
  | nil => rfl
  | cons kv rest ih =>
    obtain ⟨k', v⟩ := kv
    simp only [aupdate]
    split_ifs with h
    · simp [h, hf]
    · simp [ih]

lemma resolveSpouse_lproj (st : LState) (fkey : Str) (ptr : Option Str)
    (set : LFamily → Option Str → LFamily)
    (hset : ∀ f v, famBase (set f v) = famBase f) :
    lproj (resolveSpouse st fkey ptr set) = lproj st := by
  unfold resolveSpouse
  split
  · rfl
  · split_ifs with h
    · unfold lproj
      rw [aupdate_keys, aupdate_map_snd]
      exact fun v => hset v _
    · rfl

lemma childStep_lproj (fkey : Str) (st : LState) (cptr : Str) :
    lproj (childStep fkey st cptr) = lproj st := by
  unfold childStep
  split
  · rfl
  · split_ifs with h
    · unfold lproj
      rw [aupdate_keys, aupdate_map_snd]
      intro v
      rfl
    · rfl

lemma linkChildren_lproj (st : LState) (fkey : Str) (children : List Str) :
    lproj (linkChildren st fkey children) = lproj st :=
  foldl_preserves lproj (childStep fkey) (childStep_lproj fkey) children st

lemma linkFamily_lproj (st : LState) (entry : Str × LFamily) :
    lproj (linkFamily st entry) = lproj st := by
  unfold linkFamily
  rw [linkChildren_lproj, resolveSpouse_lproj, resolveSpouse_lproj]
  · intro f v; rfl
  · intro f v; rfl

lemma linkBuild_lproj (entries : List (Str × LFamily)) (st : LState) :
    lproj (entries.foldl linkFamily st) = lproj st :=
  foldl_preserves lproj linkFamily linkFamily_lproj entries st

/-- Clearing is insensitive to anything the rebuild loop changes. -/
lemma clearReg_of_lproj_eq (x y : LRegistry)
    (h : lproj (x.individuals, x.families) = lproj (y.individuals, y.families)) :
    clearReg x = clearReg y := by
  unfold clearReg
  obtain ⟨h1, h2⟩ := Prod.mk.injEq .. |>.mp h
  have e1 : x.individuals.map (fun kv => (kv.1, ({} : LIndividual))) =
      y.individuals.map (fun kv => (kv.1, ({} : LIndividual))) := by
    have key : ∀ (m : List (Str × LIndividual)),
        m.map (fun kv => (kv.1, ({} : LIndividual))) =
          (m.map Prod.fst).map (fun k => (k, ({} : LIndividual))) := by
      intro m
      rw [List.map_map]
      rfl
    rw [key, key, h1]
  have e2 : x.families.map (fun kv => (kv.1, clearFam kv.2)) =
      y.families.map (fun kv => (kv.1, clearFam kv.2)) := by
    have key : ∀ (m : List (Str × LFamily)),
        m.map (fun kv => (kv.1, clearFam kv.2)) =
          (m.map (fun kv => (kv.1, famBase kv.2))).map
            (fun kv => ((kv.1, LFamily.mk kv.2.1 kv.2.2.1 kv.2.2.2 none none []) :
              Str × LFamily)) := by
      intro m
      rw [List.map_map]
      rfl
    rw [key, key, h2]
  rw [e1, e2]

lemma clearReg_link (r : LRegistry) : clearReg (link_entities r) = clearReg r := by
  apply clearReg_of_lproj_eq
  have h1 : lproj ((link_entities r).individuals, (link_entities r).families) =
      lproj ((clearReg r).individuals, (clearReg r).families) := by
    unfold link_entities
    exact linkBuild_lproj _ _
  rw [h1]
  unfold lproj clearReg
  simp only [List.map_map]
  rfl

lemma alookup_map_val {β γ : Type} (m : List (Str × β)) (g : β → γ) (k : Str) :
    alookup (m.map (fun kv => (kv.1, g kv.2))) k = (alookup m k).map g := by
  induction m with
  | nil => rfl
  | cons kv rest ih =>
    by_cases h : kv.1 = k
    · simp [alookup, h]
    · simp only [List.map_cons, alookup, if_neg h]
      exact ih

lemma alookup_aupdate {β : Type} (m : List (Str × β)) (k k' : Str) (f : β → β) :
    alookup (aupdate m k f) k' =
      if k = k' then (alookup m k').map f else alookup m k' := by
  induction m with
  | nil =>
    simp only [aupdate, alookup]
    split_ifs <;> rfl
  | cons kv rest ih =>
    obtain ⟨k0, v⟩ := kv
    by_cases h0 : k0 = k
    · subst h0
      by_cases h1 : k0 = k'
      · subst h1
        simp [aupdate, alookup]
      · have hk : ¬(k0 = k') := h1
        simp [aupdate, alookup, hk]
    · by_cases h1 : k0 = k'
      · subst h1
        have hk : ¬(k = k0) := fun h => h0 h.symm
        simp [aupdate, alookup, h0, hk]
      · simp [aupdate, alookup, h0, h1, ih]

lemma alookup_none_iff {β : Type} (m : List (Str × β)) (k : Str) :
    alookup m k = none ↔ k ∉ m.map Prod.fst := by
  induction m with
  | nil => simp [alookup]
  | cons kv rest ih =>
    simp only [alookup, List.map_cons, List.mem_cons]
    split_ifs with h
    · constructor
      · intro hc
        exact hc.elim
      · intro hc
        exact absurd (Or.inl h.symm) hc
    · rw [ih]
      constructor
      · intro hc hor
        rcases hor with hor | hor
        · exact h hor.symm
        · exact hc hor
      · intro hc hor
        exact hc (Or.inr hor)

lemma alookup_split {β : Type} : ∀ (m : List (Str × β)) (k : Str) (v : β),
    alookup m k = some v →
    ∃ pre post, m = pre ++ (k, v) :: post ∧ k ∉ pre.map Prod.fst := by
  intro m
  induction m with
  | nil => intro k v h; simp [alookup] at h
  | cons kv rest ih =>
    intro k v h
    by_cases h0 : kv.1 = k
    · refine ⟨[], rest, ?_, by simp⟩
      simp only [alookup, if_pos h0] at h
      obtain ⟨rfl⟩ := h
      rw [List.nil_append, ← h0]
    · simp only [alookup, if_neg h0] at h
      obtain ⟨pre, post, he, hk⟩ := ih k v h
      refine ⟨kv :: pre, post, by rw [he]; rfl, ?_⟩
      simp only [List.map_cons, List.mem_cons]
      rintro (h1 | h1)
      · exact h0 h1.symm
      · exact hk h1

lemma resolveSpouse_other (st : LState) (fkey fk : Str) (ptr : Option Str)
    (set : LFamily → Option Str → LFamily) (hne : fkey ≠ fk) :
    alookup (resolveSpouse st fkey ptr set).2 fk = alookup st.2 fk := by
  unfold resolveSpouse
  split
  · rfl
  · split_ifs with h
    · show alookup (aupdate st.2 fkey _) fk = _
      rw [alookup_aupdate, if_neg hne]
    · rfl

lemma childStep_other (fkey fk : Str) (hne : fkey ≠ fk) (st : LState) (cptr : Str) :
    alookup (childStep fkey st cptr).2 fk = alookup st.2 fk := by
  unfold childStep
  split
  · rfl
  · split_ifs with h
    · show alookup (aupdate st.2 fkey _) fk = _
      rw [alookup_aupdate, if_neg hne]
    · rfl

lemma linkChildren_other (st : LState) (fkey fk : Str) (children : List Str)
    (hne : fkey ≠ fk) :
    alookup (linkChildren st fkey children).2 fk = alookup st.2 fk :=
  foldl_preserves (fun st => alookup st.2 fk) (childStep fkey)
    (fun s c => childStep_other fkey fk hne s c) children st

lemma linkFamily_other (st : LState) (entry : Str × LFamily) (fk : Str)
    (hne : entry.1 ≠ fk) :
    alookup (linkFamily st entry).2 fk = alookup st.2 fk := by
  unfold linkFamily
  rw [linkChildren_other _ _ _ _ hne, resolveSpouse_other _ _ _ _ _ hne,
    resolveSpouse_other _ _ _ _ _ hne]

lemma linkFold_other (fk : Str) : ∀ (entries : List (Str × LFamily)) (st : LState),
    (∀ e ∈ entries, e.1 ≠ fk) →
    alookup (entries.foldl linkFamily st).2 fk = alookup st.2 fk := by
  intro entries
  induction entries with
  | nil => intro st _; rfl
  | cons e rest ih =>
    intro st h
    rw [List.foldl_cons, ih _ (fun x hx => h x (List.mem_cons_of_mem _ hx)),
      linkFamily_other _ _ _ (h e (List.mem_cons_self _ _))]

lemma alookup_isSome_iff {β : Type} (m : List (Str × β)) (k : Str) :
    (alookup m k).isSome ↔ k ∈ m.map Prod.fst := by
  rcases hx : alookup m k with _ | v
  · simp only [Option.isSome_none, Bool.false_eq_true, false_iff]
    exact (alookup_none_iff m k).mp hx
  · simp only [Option.isSome_some, true_iff]
    by_contra hm
    rw [(alookup_none_iff m k).mpr hm] at hx
    exact Option.noConfusion hx

lemma childStep_self (fkey : Str) (st : LState) (cptr : Str) (g : LFamily)
    (hg : alookup st.2 fkey = some g) :
    ∃ g', alookup (childStep fkey st cptr).2 fkey = some g' ∧
      g'.husband_entity = g.husband_entity ∧ g'.wife_entity = g.wife_entity ∧
      (∀ x, x ∈ g'.children_entities →
        x ∈ g.children_entities ∨ x ∈ st.1.map Prod.fst) ∧
      (childStep fkey st cptr).1.map Prod.fst = st.1.map Prod.fst := by
  unfold childStep
  split
  · exact ⟨g, hg, rfl, rfl, fun x hx => Or.inl hx, rfl⟩
  next cp heq =>
    split_ifs with h
    · refine ⟨{ g with children_entities := g.children_entities ++ [cp] }, ?_, rfl, rfl,
        ?_, aupdate_keys _ _ _⟩
      · show alookup (aupdate st.2 fkey _) fkey = _
        rw [alookup_aupdate, if_pos rfl, hg]
        rfl
      · intro x hx
        have hx' : x ∈ g.children_entities ++ [cp] := hx
        rcases List.mem_append.mp hx' with hx' | hx'
        · exact Or.inl hx'
        · right
          have hxcp : x = cp := by simpa using hx'
          subst hxcp
          exact (alookup_isSome_iff st.1 x).mp h
    · exact ⟨g, hg, rfl, rfl, fun x hx => Or.inl hx, rfl⟩

lemma linkChildren_self (fkey : Str) : ∀ (children : List Str) (st : LState) (g : LFamily),
    alookup st.2 fkey = some g →
    ∃ g2, alookup (linkChildren st fkey children).2 fkey = some g2 ∧
      g2.husband_entity = g.husband_entity ∧ g2.wife_entity = g.wife_entity ∧
      (∀ x, x ∈ g2.children_entities →
        x ∈ g.children_entities ∨ x ∈ st.1.map Prod.fst) := by
  intro children
  induction children with
  | nil => intro st g hg; exact ⟨g, hg, rfl, rfl, fun x hx => Or.inl hx⟩
  | cons cptr rest ih =>
    intro st g hg
    have e : linkChildren st fkey (cptr :: rest) =
        linkChildren (childStep fkey st cptr) fkey rest := by
      unfold linkChildren
      rw [List.foldl_cons]
    rw [e]
    obtain ⟨g', hg', hhe, hwe, hce, hkeys⟩ := childStep_self fkey st cptr g hg
    obtain ⟨g2, h2, h2he, h2we, h2ce⟩ := ih (childStep fkey st cptr) g' hg'
    refine ⟨g2, h2, h2he.trans hhe, h2we.trans hwe, ?_⟩
    intro x hx
    rcases h2ce x hx with hx' | hx'
    · exact hce x hx'
    · right
      rwa [hkeys] at hx'

lemma resolveSpouse_self_husband (st : LState) (fkey : Str) (ptr : Option Str)
    (g : LFamily) (hg : alookup st.2 fkey = some g) :
    ∃ g', alookup (resolveSpouse st fkey ptr
        (fun f v => { f with husband_entity := v })).2 fkey = some g' ∧
      g'.wife_entity = g.wife_entity ∧
      g'.children_entities = g.children_entities ∧
      (∀ hp, norm_ptr ptr = some hp → ¬(alookup st.1 hp).isSome = true →
        g'.husband_entity = g.husband_entity) ∧
      (resolveSpouse st fkey ptr (fun f v => { f with husband_entity := v })).1.map
        Prod.fst = st.1.map Prod.fst := by
  unfold resolveSpouse
  split
  next heq =>
    refine ⟨g, hg, rfl, rfl, ?_, rfl⟩
    intro hp hcontra _
    rw [heq] at hcontra
  next hp0 heq =>
    split_ifs with h
    · refine ⟨{ g with husband_entity := some hp0 }, ?_, rfl, rfl, ?_, aupdate_keys _ _ _⟩
      · show alookup (aupdate st.2 fkey _) fkey = _
        rw [alookup_aupdate, if_pos rfl, hg]
        rfl
      · intro hp hsome hnot
        rw [heq] at hsome
        have hEq : hp0 = hp := Option.some.injEq .. |>.mp hsome
        subst hEq
        exact absurd h hnot
    · exact ⟨g, hg, rfl, rfl, fun _ _ _ => rfl, rfl⟩

lemma resolveSpouse_self_wife (st : LState) (fkey : Str) (ptr : Option Str)
    (g : LFamily) (hg : alookup st.2 fkey = some g) :
    ∃ g', alookup (resolveSpouse st fkey ptr
        (fun f v => { f with wife_entity := v })).2 fkey = some g' ∧
      g'.husband_entity = g.husband_entity ∧
      g'.children_entities = g.children_entities ∧
      (∀ wp, norm_ptr ptr = some wp → ¬(alookup st.1 wp).isSome = true →
        g'.wife_entity = g.wife_entity) ∧
      (resolveSpouse st fkey ptr (fun f v => { f with wife_entity := v })).1.map
        Prod.fst = st.1.map Prod.fst := by
  unfold resolveSpouse
  split
  next heq =>
    refine ⟨g, hg, rfl, rfl, ?_, rfl⟩
    intro wp hcontra _
    rw [heq] at hcontra
  next wp0 heq =>
    split_ifs with h
    · refine ⟨{ g with wife_entity := some wp0 }, ?_, rfl, rfl, ?_, aupdate_keys _ _ _⟩
      · show alookup (aupdate st.2 fkey _) fkey = _
        rw [alookup_aupdate, if_pos rfl, hg]
        rfl
      · intro wp hsome hnot
        rw [heq] at hsome
        have hEq : wp0 = wp := Option.some.injEq .. |>.mp hsome
        subst hEq
        exact absurd h hnot
    · exact ⟨g, hg, rfl, rfl, fun _ _ _ => rfl, rfl⟩

lemma linkFamily_self (st : LState) (fkey : Str) (fam0 g : LFamily)
    (hg : alookup st.2 fkey = some g) :
    ∃ g3, alookup (linkFamily st (fkey, fam0)).2 fkey = some g3 ∧
      (∀ hp, norm_ptr fam0.husband = some hp → ¬(alookup st.1 hp).isSome = true →
        g3.husband_entity = g.husband_entity) ∧
      (∀ wp, norm_ptr fam0.wife = some wp → ¬(alookup st.1 wp).isSome = true →
        g3.wife_entity = g.wife_entity) ∧
      (∀ x, x ∈ g3.children_entities →
        x ∈ g.children_entities ∨ x ∈ st.1.map Prod.fst) := by
  obtain ⟨g1, hg1, h1we, h1ce, h1he, h1keys⟩ := resolveSpouse_self_husband st fkey
    fam0.husband g hg
  set st1 := resolveSpouse st fkey fam0.husband (fun f v => { f with husband_entity := v })
    with hst1
  obtain ⟨g2, hg2, h2he, h2ce, h2we, h2keys⟩ := resolveSpouse_self_wife st1 fkey
    fam0.wife g1 hg1
  set st2 := resolveSpouse st1 fkey fam0.wife (fun f v => { f with wife_entity := v })
    with hst2
  obtain ⟨g3, hg3, h3he, h3we, h3ce⟩ := linkChildren_self fkey fam0.children st2 g2 hg2
  refine ⟨g3, hg3, ?_, ?_, ?_⟩
  · intro hp hn hmiss
    rw [h3he, h2he]
    exact h1he hp hn hmiss
  · intro wp hn hmiss
    rw [h3we, ← h1we]
    apply h2we wp hn
    intro hsome
    apply hmiss
    rwa [alookup_isSome_iff, h1keys, ← alookup_isSome_iff] at hsome
  · intro x hx
    rcases h3ce x hx with hx' | hx'
    · rw [h2ce, h1ce] at hx'
      exact Or.inl hx'
    · right
      rwa [h2keys, h1keys] at hx'

/-- C8: linker re-runnability. Linking is a total function; running it twice
leaves exactly the state of running it once (no accumulation of duplicate
spouse_in_families / child_in_families / children_entities back-references,
by the clear-then-rebuild structure), and a husband/wife/child pointer with
no matching individual in the registry simply leaves the corresponding link
absent. -/
theorem C8_linker_rerunnable (r : LRegistry) :
    link_entities (link_entities r) = link_entities r
  ∧ (∀ fkey fam, (r.families.map Prod.fst).Nodup →
      alookup r.families fkey = some fam →
      ∃ fam', alookup (link_entities r).families fkey = some fam' ∧
        (∀ hp, norm_ptr fam.husband = some hp →
          alookup r.individuals hp = none → fam'.husband_entity = none) ∧
        (∀ wp, norm_ptr fam.wife = some wp →
          alookup r.individuals wp = none → fam'.wife_entity = none) ∧
        (∀ cp, alookup r.individuals cp = none →
          cp ∉ fam'.children_entities)) := by
  constructor
  · have hcong : ∀ x y : LRegistry, clearReg x = clearReg y →
        link_entities x = link_entities y := by
      intro x y h
      unfold link_entities
      rw [h]
    exact hcong _ _ (clearReg_link r)
  · intro fkey fam hnd hfam
    have hclr : alookup (clearReg r).families fkey = some (clearFam fam) := by
      show alookup (r.families.map (fun kv => (kv.1, clearFam kv.2))) fkey = _
      rw [alookup_map_val, hfam]
      rfl
    obtain ⟨pre, post, hsplit, hpre⟩ := alookup_split _ _ _ hclr
    have hkeys : (clearReg r).families.map Prod.fst = r.families.map Prod.fst := by
      show (r.families.map (fun kv => (kv.1, clearFam kv.2))).map Prod.fst = _
      rw [List.map_map]
      rfl
    have hnd' : ((clearReg r).families.map Prod.fst).Nodup := by
      rw [hkeys]
      exact hnd
    have hpost : ∀ e ∈ post, e.1 ≠ fkey := by
      rw [hsplit, List.map_append, List.map_cons] at hnd'
      have h2 := (List.nodup_append.mp hnd').2.1
      have h3 := (List.nodup_cons.mp h2).1
      intro e he heq
      exact h3 (by rw [← heq]; exact List.mem_map.mpr ⟨e, he, rfl⟩)
    have hpre' : ∀ e ∈ pre, e.1 ≠ fkey := by
      intro e he heq
      exact hpre (by rw [← heq]; exact List.mem_map.mpr ⟨e, he, rfl⟩)
    have hfold : (link_entities r).families =
        ((clearReg r).families.foldl linkFamily
          ((clearReg r).individuals, (clearReg r).families)).2 := rfl
    have hdecomp : ∀ st : LState, (clearReg r).families.foldl linkFamily st =
        post.foldl linkFamily
          (linkFamily (pre.foldl linkFamily st) (fkey, clearFam fam)) := by
      intro st
      rw [hsplit, List.foldl_append, List.foldl_cons]
    have hmid2 : alookup (pre.foldl linkFamily
        ((clearReg r).individuals, (clearReg r).families)).2 fkey =
        some (clearFam fam) := by
      rw [linkFold_other fkey pre _ hpre']
      exact hclr
    have hmidkeys : (pre.foldl linkFamily
        ((clearReg r).individuals, (clearReg r).families)).1.map Prod.fst =
        r.individuals.map Prod.fst := by
      have hp1 := congrArg Prod.fst (linkBuild_lproj pre
        ((clearReg r).individuals, (clearReg r).families))
      refine hp1.trans ?_
      show (clearReg r).individuals.map Prod.fst = _
      unfold clearReg
      rw [List.map_map]
      rfl
    obtain ⟨g3, hg3, hhe, hwe, hce⟩ := linkFamily_self _ fkey (clearFam fam)
      (clearFam fam) hmid2
    have hfinal : alookup (link_entities r).families fkey = some g3 := by
      rw [hfold, hdecomp ((clearReg r).individuals, (clearReg r).families),
        linkFold_other fkey post _ hpost]
      exact hg3
    refine ⟨g3, hfinal, ?_, ?_, ?_⟩
    · intro hp hn hnone
      have hmiss : ¬(alookup (pre.foldl linkFamily
          ((clearReg r).individuals, (clearReg r).families)).1 hp).isSome = true := by
        intro hsome
        rw [alookup_isSome_iff, hmidkeys] at hsome
        exact (alookup_none_iff _ _).mp hnone hsome
      exact hhe hp hn hmiss
    · intro wp hn hnone
      have hmiss : ¬(alookup (pre.foldl linkFamily
          ((clearReg r).individuals, (clearReg r).families)).1 wp).isSome = true := by
        intro hsome
        rw [alookup_isSome_iff, hmidkeys] at hsome
        exact (alookup_none_iff _ _).mp hnone hsome
      exact hwe wp hn hmiss
    · intro cp hnone hmem
      rcases hce cp hmem with h | h
      · exact absurd h (by simp [clearFam])
      · rw [hmidkeys] at h
        exact (alookup_none_iff _ _).mp hnone h

def wLinkFam : LFamily :=
  { husband := some ("@I1@".toList), wife := some ("@I404@".toList),
    children := ["@I2@".toList, "@I999@".toList] }

def wLinkReg : LRegistry :=
  { individuals := [("@I1@".toList, {}), ("@I2@".toList, {})]
    families := [("@F1@".toList, wLinkFam)] }

/-- Witness for C8 at a concrete registry with one resolvable spouse, one
missing spouse and one missing child. -/
theorem C8_linker_rerunnable_witness :
    link_entities (link_entities wLinkReg) = link_entities wLinkReg ∧
    (∃ fam', alookup (link_entities wLinkReg).families ("@F1@".toList) = some fam' ∧
      fam'.wife_entity = none ∧ ("@I999@".toList : Str) ∉ fam'.children_entities) := by
  obtain ⟨h1, h2⟩ := C8_linker_rerunnable wLinkReg
  refine ⟨h1, ?_⟩
  obtain ⟨fam', hf, hh, hw, hc⟩ := h2 ("@F1@".toList) wLinkFam (by decide) (by decide)
  exact ⟨fam', hf, hw ("@I404@".toList) (by decide) (by decide),
    hc ("@I999@".toList) (by decide)⟩

/-!
Clustering (source lines 758-794): the undirected candidate graph, the
depth-first component collection, and `build_clusters`. Python sets are
modelled as insertion-ordered duplicate-free lists (set iteration order is
implementation-defined; every cluster is sorted before being emitted and
membership is order-independent, so the representation choice is inert). The
Python stack holds its top at the list end; here the top is the list head, so
pushing an adjacency list pushes it reversed, an order-isomorphic encoding.
-/

/-- Python `set.add`. -/
def setAdd (s : List Str) (x : Str) : List Str := if x ∈ s then s else s ++ [x]

/-- `graph.setdefault(a, set()).add(b)`. -/
def graphAdd (g : List (Str × List Str)) (a b : Str) : List (Str × List Str) :=
  match g with
  | [] => [(a, [b])]
  | (k, s) :: rest =>
    if k = a then (k, setAdd s b) :: rest else (k, s) :: graphAdd rest a b

/-- The undirected graph over kept candidate pairs built by `build_clusters`
(candidates with a falsy id are skipped). -/
def buildGraph (cands : List Cand) : List (Str × List Str) :=
  cands.foldl
    (fun g c =>
      if c.id1 = [] ∨ c.id2 = [] then g
      else graphAdd (graphAdd g c.id1 c.id2) c.id2 c.id1)
    []

/-- `graph.get(n, [])`. -/
def adj (g : List (Str × List Str)) (n : Str) : List Str := (alookup g n).getD []

/-- The nodes of the graph (the dict's keys, in insertion order). -/
def graphKeys (g : List (Str × List Str)) : List Str := g.map Prod.fst

/-- Source `_dfs_collect`: stack-based depth-first collection sharing the
`visited` set across calls. Returns the collected nodes and the final
`visited` set. -/
def dfs_collect (g : List (Str × List Str)) (stack visited out : List Str) :
    List Str × List Str :=
  match stack with
  | [] => (out, visited)
  | n :: rest =>
    if n ∈ visited then dfs_collect g rest visited out
    else dfs_collect g ((adj g n).reverse ++ rest) (n :: visited) (out ++ [n])
termination_by (((graphKeys g).filter (fun k => k ∉ visited)).length, stack.length)
decreasing_by
  · apply Prod.Lex.right
    simp
  · rename_i hnv
    by_cases hk : x ∈ graphKeys g
    · apply Prod.Lex.left
      have hle : ∀ (l : List Str),
          (l.filter (fun k => k ∉ x :: visited)).length ≤
            (l.filter (fun k => k ∉ visited)).length := by
        intro l
        induction l with
        | nil => simp
        | cons x0 xs ih =>
          by_cases h1 : x0 ∈ x :: visited
          · by_cases h2 : x0 ∈ visited
            · simp only [List.filter_cons]
              rw [if_neg (by simp [h1]), if_neg (by simp [h2])]
              exact ih
            · simp only [List.filter_cons]
              rw [if_neg (by simp [h1]), if_pos (by simp [h2])]
              exact Nat.le_succ_of_le ih
          · have h2 : x0 ∉ visited := fun h => h1 (List.mem_cons_of_mem _ h)
            simp only [List.filter_cons]
            rw [if_pos (by simp [h1]), if_pos (by simp [h2])]
            exact Nat.succ_le_succ ih
      have hlt : ∀ (l : List Str), x ∈ l →
          (l.filter (fun k => k ∉ x :: visited)).length <
            (l.filter (fun k => k ∉ visited)).length := by
        intro l
        induction l with
        | nil => simp
        | cons x0 xs ih =>
          intro hmem
          by_cases hxn0 : x0 = x
          · subst hxn0
            simp only [List.filter_cons]
            rw [if_neg (by simp), if_pos (by simp [hnv])]
            exact Nat.lt_succ_of_le (hle xs)
          · rcases List.mem_cons.mp hmem with h | h
            · exact absurd h.symm hxn0
            · by_cases h1 : x0 ∈ x :: visited
              · by_cases h2 : x0 ∈ visited
                · simp only [List.filter_cons]
                  rw [if_neg (by simp [h1]), if_neg (by simp [h2])]
                  exact ih h
                · simp only [List.filter_cons]
                  rw [if_neg (by simp [h1]), if_pos (by simp [h2])]
                  exact Nat.lt_succ_of_lt (ih h)
              · have h2 : x0 ∉ visited := fun hh => h1 (List.mem_cons_of_mem _ hh)
                simp only [List.filter_cons]
                rw [if_pos (by simp [h1]), if_pos (by simp [h2])]
                exact Nat.succ_lt_succ (ih h)
      exact hlt _ hk
    · have hadj : adj g x = [] := by
        unfold adj
        rw [(alookup_none_iff g x).mpr hk]
        rfl
      have heq : ((graphKeys g).filter (fun k => k ∉ x :: visited)).length =
          ((graphKeys g).filter (fun k => k ∉ visited)).length := by
        congr 1
        apply List.filter_congr
        intro y hy
        have hxn : y ≠ x := fun h => hk (h ▸ hy)
        simp [List.mem_cons, hxn]
      rw [hadj, heq]
      apply Prod.Lex.right
      simp

/-- Lexicographic comparison of Python strings (code-point order). -/
def strLe (a b : Str) : Bool :=
  match a, b with
  | [], _ => true
  | _ :: _, [] => false
  | x :: xs, y :: ys => if x < y then true else if y < x then false else strLe xs ys

/-- Insertion step of `sorted`. -/
def insertSorted (x : Str) : List Str → List Str
  | [] => [x]
  | y :: ys => if strLe x y then x :: y :: ys else y :: insertSorted x ys

/-- Python `sorted` on a list of strings (insertion sort; only membership and
order matter downstream). -/
def sortStr : List Str → List Str
  | [] => []
  | x :: xs => insertSorted x (sortStr xs)

/-- The cluster-emitting loop of `build_clusters`: one cluster per graph node
not yet visited, with the shared `visited` set threaded through. -/
def clustersLoop (g : List (Str × List Str)) :
    List Str → List Str → Nat → List (Str × List Str)
  | [], _, _ => []
  | n :: ns, visited, ctr =>
    if n ∈ visited then clustersLoop g ns visited ctr
    else
      let r := dfs_collect g [n] visited []
      ('C' :: natDecimal ctr, sortStr r.1) :: clustersLoop g ns r.2 (ctr + 1)

/-- Source `build_clusters`. -/
def build_clusters (cands : List Cand) : List (Str × List Str) :=
  clustersLoop (buildGraph cands) (graphKeys (buildGraph cands)) [] 1

lemma mem_insertSorted (x y : Str) : ∀ (l : List Str),
    x ∈ insertSorted y l ↔ x = y ∨ x ∈ l := by
  intro l
  induction l with
  | nil => simp [insertSorted]
  | cons z zs ih =>
    simp only [insertSorted]
    split_ifs with h
    · simp [List.mem_cons]
    · simp only [List.mem_cons, ih]
      tauto

lemma mem_sortStr (x : Str) : ∀ (l : List Str), x ∈ sortStr l ↔ x ∈ l := by
  intro l
  induction l with
  | nil => simp [sortStr]
  | cons z zs ih =>
    simp only [sortStr, mem_insertSorted, ih, List.mem_cons]

lemma mem_setAdd (x y : Str) (s : List Str) :
    x ∈ setAdd s y ↔ x ∈ s ∨ x = y := by
  unfold setAdd
  split_ifs with h
  · constructor
    · exact Or.inl
    · rintro (hx | rfl)
      · exact hx
      · exact h
  · simp

lemma alookup_graphAdd (a b x : Str) : ∀ (g : List (Str × List Str)),
    alookup (graphAdd g a b) x =
      if x = a then some (setAdd ((alookup g a).getD []) b) else alookup g x := by
  intro g
  induction g with
  | nil =>
    by_cases hx : x = a
    · subst hx
      simp [graphAdd, alookup, setAdd]
    · have hx' : ¬(a = x) := fun h => hx h.symm
      simp [graphAdd, alookup, hx, hx']
  | cons kv rest ih =>
    obtain ⟨k, s⟩ := kv
    by_cases hk : k = a
    · have hg : graphAdd ((k, s) :: rest) a b = (k, setAdd s b) :: rest := by
        simp [graphAdd, hk]
      rw [hg]
      by_cases hx : x = a
      · have hka : k = x := by rw [hx, hk]
        have h1 : alookup ((k, setAdd s b) :: rest) x = some (setAdd s b) := by
          simp [alookup, hka]
        have h2 : alookup ((k, s) :: rest) a = some s := by
          simp [alookup, hk]
        rw [h1, if_pos hx, h2]
        rfl
      · have hkx : ¬(k = x) := by
          intro h
          exact hx (by rw [← h, hk])
        simp [alookup, hkx, hx]
    · have hg : graphAdd ((k, s) :: rest) a b = (k, s) :: graphAdd rest a b := by
        simp [graphAdd, hk]
      rw [hg]
      by_cases hx : x = k
      · have hkx : k = x := hx.symm
        have hxa : ¬(x = a) := by rw [hx]; exact hk
        simp [alookup, hkx, hxa]
      · have hkx : ¬(k = x) := fun h => hx h.symm
        have hL : alookup ((k, s) :: graphAdd rest a b) x = alookup (graphAdd rest a b) x := by
          simp [alookup, hkx]
        have hR : alookup ((k, s) :: rest) x = alookup rest x := by
          simp [alookup, hkx]
        have hRa : alookup ((k, s) :: rest) a = alookup rest a := by
          simp [alookup, hk]
        rw [hL, ih, hR, hRa]

lemma adj_graphAdd (a b x : Str) (g : List (Str × List Str)) :
    adj (graphAdd g a b) x = if x = a then setAdd (adj g a) b else adj g x := by
  show (alookup (graphAdd g a b) x).getD [] = _
  rw [alookup_graphAdd]
  split_ifs with h
  · rfl
  · rfl

lemma adj_mem_keys {g : List (Str × List Str)} {x : Str} (h : adj g x ≠ []) :
    x ∈ graphKeys g := by
  by_contra hm
  rw [show adj g x = (alookup g x).getD [] from rfl,
    (alookup_none_iff g x).mpr hm] at h
  exact h rfl

/-- Edges of the candidate graph. -/
def GEdge (g : List (Str × List Str)) (x y : Str) : Prop := y ∈ adj g x

/-- Reachability in the candidate graph. -/
def Reach (g : List (Str × List Str)) : Str → Str → Prop :=
  Relation.ReflTransGen (GEdge g)

/-- Symmetry of the adjacency structure. -/
def GraphSym (g : List (Str × List Str)) : Prop :=
  ∀ x y, y ∈ adj g x → x ∈ adj g y

lemma graphAdd_pair_sym {g : List (Str × List Str)} (a b : Str) (hs : GraphSym g) :
    GraphSym (graphAdd (graphAdd g a b) b a) := by
  intro x y hy
  simp only [adj_graphAdd, mem_setAdd] at hy ⊢
  by_cases hxb : x = b <;> by_cases hxa : x = a <;>
    by_cases hyb : y = b <;> by_cases hya : y = a <;>
    simp only [hxb, hxa, hyb, hya, if_pos, if_neg, mem_setAdd] at hy ⊢ <;>
    simp_all [mem_setAdd] <;>
    tauto

lemma dfs_nil (g : List (Str × List Str)) (visited out : List Str) :
    dfs_collect g [] visited out = (out, visited) := by
  rw [dfs_collect]

lemma dfs_mem {n : Str} {visited : List Str} (h : n ∈ visited)
    (g : List (Str × List Str)) (rest out : List Str) :
    dfs_collect g (n :: rest) visited out = dfs_collect g rest visited out := by
  rw [dfs_collect]
  simp [h]

lemma dfs_push {n : Str} {visited : List Str} (h : n ∉ visited)
    (g : List (Str × List Str)) (rest out : List Str) :
    dfs_collect g (n :: rest) visited out =
      dfs_collect g ((adj g n).reverse ++ rest) (n :: visited) (out ++ [n]) := by
  rw [dfs_collect]
  simp [h]

lemma D_out_mono (g : List (Str × List Str)) (x : Str) :
    ∀ (stack visited out : List Str), x ∈ out →
      x ∈ (dfs_collect g stack visited out).1 := by
  intro stack visited out
  induction stack, visited, out using dfs_collect.induct g with
  | case1 visited out =>
    intro hx
    rw [dfs_nil]
    exact hx
  | case2 visited out n rest hn ih =>
    intro hx
    rw [dfs_mem hn]
    exact ih hx
  | case3 visited out n rest hn ih =>
    intro hx
    rw [dfs_push hn]
    exact ih (List.mem_append_left _ hx)

lemma D_vis_mono (g : List (Str × List Str)) (x : Str) :
    ∀ (stack visited out : List Str), x ∈ visited →
      x ∈ (dfs_collect g stack visited out).2 := by
  intro stack visited out
  induction stack, visited, out using dfs_collect.induct g with
  | case1 visited out =>
    intro hx
    rw [dfs_nil]
    exact hx
  | case2 visited out n rest hn ih =>
    intro hx
    rw [dfs_mem hn]
    exact ih hx
  | case3 visited out n rest hn ih =>
    intro hx
    rw [dfs_push hn]
    exact ih (List.mem_cons_of_mem _ hx)

lemma D_vis_new (g : List (Str × List Str)) (x : Str) :
    ∀ (stack visited out : List Str), x ∈ (dfs_collect g stack visited out).2 →
      x ∈ visited ∨ x ∈ (dfs_collect g stack visited out).1 := by
  intro stack visited out
  induction stack, visited, out using dfs_collect.induct g with
  | case1 visited out =>
    intro hx
    rw [dfs_nil] at hx ⊢
    exact Or.inl hx
  | case2 visited out n rest hn ih =>
    intro hx
    rw [dfs_mem hn] at hx ⊢
    exact ih hx
  | case3 visited out n rest hn ih =>
    intro hx
    rw [dfs_push hn] at hx ⊢
    rcases ih hx with h | h
    · rcases List.mem_cons.mp h with h1 | h2
      · refine Or.inr ?_
        rw [h1]
        exact D_out_mono g n _ _ _ (List.mem_append_right _ (List.mem_singleton.mpr rfl))
      · exact Or.inl h2
    · exact Or.inr h

lemma D_out_fresh (g : List (Str × List Str)) (x : Str) :
    ∀ (stack visited out : List Str), x ∈ (dfs_collect g stack visited out).1 →
      x ∈ out ∨ x ∉ visited := by
  intro stack visited out
  induction stack, visited, out using dfs_collect.induct g with
  | case1 visited out =>
    intro hx
    rw [dfs_nil] at hx
    exact Or.inl hx
  | case2 visited out n rest hn ih =>
    intro hx
    rw [dfs_mem hn] at hx
    exact ih hx
  | case3 visited out n rest hn ih =>
    intro hx
    rw [dfs_push hn] at hx
    rcases ih hx with h | h
    · rcases List.mem_append.mp h with h1 | h2
      · exact Or.inl h1
      · refine Or.inr ?_
        rw [List.mem_singleton] at h2
        rw [h2]
        exact hn
    · exact Or.inr (fun hv => h (List.mem_cons_of_mem _ hv))

lemma D_out_in_vis (g : List (Str × List Str)) (x : Str) :
    ∀ (stack visited out : List Str), x ∈ (dfs_collect g stack visited out).1 →
      x ∈ out ∨ x ∈ (dfs_collect g stack visited out).2 := by
  intro stack visited out
  induction stack, visited, out using dfs_collect.induct g with
  | case1 visited out =>
    intro hx
    rw [dfs_nil] at hx ⊢
    exact Or.inl hx
  | case2 visited out n rest hn ih =>
    intro hx
    rw [dfs_mem hn] at hx ⊢
    exact ih hx
  | case3 visited out n rest hn ih =>
    intro hx
    rw [dfs_push hn] at hx ⊢
    rcases ih hx with h | h
    · rcases List.mem_append.mp h with h1 | h2
      · exact Or.inl h1
      · refine Or.inr ?_
        rw [List.mem_singleton] at h2
        rw [h2]
        exact D_vis_mono g n _ _ _ (List.mem_cons_self _ _)
    · exact Or.inr h

lemma D_reach (g : List (Str × List Str)) (s : Str) :
    ∀ (stack visited out : List Str),
      (∀ x ∈ stack, Reach g s x) → (∀ x ∈ out, Reach g s x) →
      ∀ x ∈ (dfs_collect g stack visited out).1, Reach g s x := by
  intro stack visited out
  induction stack, visited, out using dfs_collect.induct g with
  | case1 visited out =>
    intro _ hout x hx
    rw [dfs_nil] at hx
    exact hout x hx
  | case2 visited out n rest hn ih =>
    intro hstack hout x hx
    rw [dfs_mem hn] at hx
    exact ih (fun y hy => hstack y (List.mem_cons_of_mem _ hy)) hout x hx
  | case3 visited out n rest hn ih =>
    intro hstack hout x hx
    rw [dfs_push hn] at hx
    refine ih ?_ ?_ x hx
    · intro y hy
      rcases List.mem_append.mp hy with h1 | h2
      · have hyadj : y ∈ adj g n := List.mem_reverse.mp h1
        exact Relation.ReflTransGen.tail (hstack n (List.mem_cons_self _ _)) hyadj
      · exact hstack y (List.mem_cons_of_mem _ h2)
    · intro y hy
      rcases List.mem_append.mp hy with h1 | h2
      · exact hout y h1
      · rw [List.mem_singleton] at h2
        rw [h2]
        exact hstack n (List.mem_cons_self _ _)

lemma D_closed (g : List (Str × List Str)) :
    ∀ (stack visited out : List Str),
      (∀ x ∈ visited, ∀ y ∈ adj g x, y ∈ visited ∨ y ∈ stack) →
      ∀ x ∈ (dfs_collect g stack visited out).2, ∀ y ∈ adj g x,
        y ∈ (dfs_collect g stack visited out).2 := by
  intro stack visited out
  induction stack, visited, out using dfs_collect.induct g with
  | case1 visited out =>
    intro hinv x hx y hy
    rw [dfs_nil] at hx ⊢
    rcases hinv x hx y hy with h | h
    · exact h
    · exact absurd h (List.not_mem_nil y)
  | case2 visited out n rest hn ih =>
    intro hinv x hx y hy
    rw [dfs_mem hn] at hx ⊢
    refine ih ?_ x hx y hy
    intro a ha b hb
    rcases hinv a ha b hb with h | h
    · exact Or.inl h
    · rcases List.mem_cons.mp h with h1 | h2
      · refine Or.inl ?_
        rw [h1]
        exact hn
      · exact Or.inr h2
  | case3 visited out n rest hn ih =>
    intro hinv x hx y hy
    rw [dfs_push hn] at hx ⊢
    refine ih ?_ x hx y hy
    intro a ha b hb
    rcases List.mem_cons.mp ha with h1 | h2
    · refine Or.inr (List.mem_append_left _ ?_)
      rw [List.mem_reverse]
      rw [h1] at hb
      exact hb
    · rcases hinv a h2 b hb with h | h
      · exact Or.inl (List.mem_cons_of_mem _ h)
      · rcases List.mem_cons.mp h with hh1 | hh2
        · refine Or.inl ?_
          rw [hh1]
          exact List.mem_cons_self _ _
        · exact Or.inr (List.mem_append_right _ hh2)

lemma D_outP (g : List (Str × List Str)) (P : Str → Prop)
    (hadj : ∀ a b, b ∈ adj g a → P b) :
    ∀ (stack visited out : List Str),
      (∀ x ∈ stack, P x) → (∀ x ∈ out, P x) →
      ∀ x ∈ (dfs_collect g stack visited out).1, P x := by
  intro stack visited out
  induction stack, visited, out using dfs_collect.induct g with
  | case1 visited out =>
    intro _ hout x hx
    rw [dfs_nil] at hx
    exact hout x hx
  | case2 visited out n rest hn ih =>
    intro hstack hout x hx
    rw [dfs_mem hn] at hx
    exact ih (fun y hy => hstack y (List.mem_cons_of_mem _ hy)) hout x hx
  | case3 visited out n rest hn ih =>
    intro hstack hout x hx
    rw [dfs_push hn] at hx
    refine ih ?_ ?_ x hx
    · intro y hy
      rcases List.mem_append.mp hy with h1 | h2
      · exact hadj n y (List.mem_reverse.mp h1)
      · exact hstack y (List.mem_cons_of_mem _ h2)
    · intro y hy
      rcases List.mem_append.mp hy with h1 | h2
      · exact hout y h1
      · rw [List.mem_singleton] at h2
        rw [h2]
        exact hstack n (List.mem_cons_self _ _)

lemma reach_closed {g : List (Str × List Str)} {P : Str → Prop}
    (hP : ∀ a, ∀ b ∈ adj g a, P a → P b) :
    ∀ {x y : Str}, Reach g x y → P x → P y := by
  intro x y h
  induction h with
  | refl => exact id
  | tail _ h2 ih => exact fun hx => hP _ _ h2 (ih hx)

lemma reach_symm {g : List (Str × List Str)} (hs : GraphSym g) {x y : Str}
    (h : Reach g x y) : Reach g y x :=
  Relation.ReflTransGen.symmetric (fun a b hab => hs a b hab) h

lemma buildGraph_sym (cands : List Cand) : GraphSym (buildGraph cands) := by
  unfold buildGraph
  suffices h : ∀ (l : List Cand) (g0 : List (Str × List Str)), GraphSym g0 →
      GraphSym (l.foldl (fun g c => if c.id1 = [] ∨ c.id2 = [] then g
        else graphAdd (graphAdd g c.id1 c.id2) c.id2 c.id1) g0) by
    apply h
    intro x y hy
    simp [adj, alookup] at hy
  intro l
  induction l with
  | nil =>
    intro g0 h0
    exact h0
  | cons c cs ih =>
    intro g0 h0
    simp only [List.foldl_cons]
    apply ih
    split_ifs with hc
    · exact h0
    · exact graphAdd_pair_sym _ _ h0

lemma sym_adj_keys {g : List (Str × List Str)} (hs : GraphSym g) {x y : Str}
    (hy : y ∈ adj g x) : y ∈ graphKeys g :=
  adj_mem_keys (List.ne_nil_of_mem (hs x y hy))

lemma CL_members_keys {g : List (Str × List Str)} (hs : GraphSym g) :
    ∀ (ns : List Str), (∀ x ∈ ns, x ∈ graphKeys g) →
    ∀ (visited : List Str) (ctr : Nat),
    ∀ c ∈ clustersLoop g ns visited ctr, ∀ x ∈ c.2, x ∈ graphKeys g := by
  intro ns
  induction ns with
  | nil =>
    intro _ visited ctr c hc
    simp [clustersLoop] at hc
  | cons n ns ih =>
    intro hns visited ctr c hc x hx
    simp only [clustersLoop] at hc
    split_ifs at hc with hn
    · exact ih (fun y hy => hns y (List.mem_cons_of_mem _ hy)) _ _ c hc x hx
    · rcases List.mem_cons.mp hc with h1 | h2
      · subst h1
        have hx2 : x ∈ (dfs_collect g [n] visited []).1 := (mem_sortStr x _).mp hx
        refine D_outP g (fun z => z ∈ graphKeys g) (fun a b hb => sym_adj_keys hs hb)
          [n] visited [] ?_ ?_ x hx2
        · intro y hy
          rw [List.mem_singleton] at hy
          rw [hy]
          exact hns n (List.mem_cons_self _ _)
        · intro y hy
          exact absurd hy (List.not_mem_nil y)
      · exact ih (fun y hy => hns y (List.mem_cons_of_mem _ hy)) _ _ c h2 x hx

lemma CL_members_fresh (g : List (Str × List Str)) :
    ∀ (ns visited : List Str) (ctr : Nat),
      ∀ c ∈ clustersLoop g ns visited ctr, ∀ x ∈ c.2, x ∉ visited := by
  intro ns
  induction ns with
  | nil =>
    intro visited ctr c hc
    simp [clustersLoop] at hc
  | cons n ns ih =>
    intro visited ctr c hc x hx
    simp only [clustersLoop] at hc
    split_ifs at hc with hn
    · exact ih _ _ c hc x hx
    · rcases List.mem_cons.mp hc with h1 | h2
      · subst h1
        have hx2 : x ∈ (dfs_collect g [n] visited []).1 := (mem_sortStr x _).mp hx
        rcases D_out_fresh g x [n] visited [] hx2 with h | h
        · exact absurd h (List.not_mem_nil x)
        · exact h
      · intro hxv
        exact ih _ _ c h2 x hx (D_vis_mono g x [n] visited [] hxv)

lemma CL_pairwise (g : List (Str × List Str)) :
    ∀ (ns visited : List Str) (ctr : Nat),
      List.Pairwise (fun c1 c2 => ∀ x, x ∈ c1.2 → x ∉ c2.2)
        (clustersLoop g ns visited ctr) := by
  intro ns
  induction ns with
  | nil =>
    intro visited ctr
    simp [clustersLoop]
  | cons n ns ih =>
    intro visited ctr
    simp only [clustersLoop]
    split_ifs with hn
    · exact ih _ _
    · refine List.Pairwise.cons ?_ (ih _ _)
      intro c hc x hx hxc
      have hx2 : x ∈ (dfs_collect g [n] visited []).1 := (mem_sortStr x _).mp hx
      have hxv : x ∈ (dfs_collect g [n] visited []).2 := by
        rcases D_out_in_vis g x [n] visited [] hx2 with h | h
        · exact absurd h (List.not_mem_nil x)
        · exact h
      exact CL_members_fresh g ns _ _ c hc x hxc hxv

lemma CL_reach (g : List (Str × List Str)) :
    ∀ (ns visited : List Str) (ctr : Nat),
      ∀ c ∈ clustersLoop g ns visited ctr, ∃ s, ∀ x ∈ c.2, Reach g s x := by
  intro ns
  induction ns with
  | nil =>
    intro visited ctr c hc
    simp [clustersLoop] at hc
  | cons n ns ih =>
    intro visited ctr c hc
    simp only [clustersLoop] at hc
    split_ifs at hc with hn
    · exact ih _ _ c hc
    · rcases List.mem_cons.mp hc with h1 | h2
      · subst h1
        refine ⟨n, fun x hx => ?_⟩
        have hx2 : x ∈ (dfs_collect g [n] visited []).1 := (mem_sortStr x _).mp hx
        refine D_reach g n [n] visited [] ?_ ?_ x hx2
        · intro y hy
          rw [List.mem_singleton] at hy
          rw [hy]
          exact Relation.ReflTransGen.refl
        · intro y hy
          exact absurd hy (List.not_mem_nil y)
      · exact ih _ _ c h2

lemma CL_closed {g : List (Str × List Str)} (hs : GraphSym g) :
    ∀ (ns visited : List Str) (ctr : Nat),
      (∀ x ∈ visited, ∀ y ∈ adj g x, y ∈ visited) →
      ∀ c ∈ clustersLoop g ns visited ctr, ∀ x ∈ c.2, ∀ y ∈ adj g x, y ∈ c.2 := by
  intro ns
  induction ns with
  | nil =>
    intro visited ctr _ c hc
    simp [clustersLoop] at hc
  | cons n ns ih =>
    intro visited ctr hvc c hc x hx y hy
    simp only [clustersLoop] at hc
    split_ifs at hc with hn
    · exact ih _ _ hvc c hc x hx y hy
    · have hVclosed : ∀ a ∈ (dfs_collect g [n] visited []).2, ∀ b ∈ adj g a,
          b ∈ (dfs_collect g [n] visited []).2 := by
        apply D_closed
        intro a ha b hb
        exact Or.inl (hvc a ha b hb)
      rcases List.mem_cons.mp hc with h1 | h2
      · subst h1
        have hx2 : x ∈ (dfs_collect g [n] visited []).1 := (mem_sortStr x _).mp hx
        have hxV : x ∈ (dfs_collect g [n] visited []).2 := by
          rcases D_out_in_vis g x [n] visited [] hx2 with h | h
          · exact absurd h (List.not_mem_nil x)
          · exact h
        have hyV : y ∈ (dfs_collect g [n] visited []).2 := hVclosed x hxV y hy
        rcases D_vis_new g y [n] visited [] hyV with h | h
        · exfalso
          have hxfresh : x ∉ visited := by
            rcases D_out_fresh g x [n] visited [] hx2 with hh | hh
            · exact absurd hh (List.not_mem_nil x)
            · exact hh
          exact hxfresh (hvc y h x (hs x y hy))
        · exact (mem_sortStr y _).mpr h
      · exact ih _ _ hVclosed c h2 x hx y hy

lemma CL_complete (g : List (Str × List Str)) :
    ∀ (ns visited : List Str) (ctr : Nat) (x : Str), x ∈ ns → x ∉ visited →
      ∃ c ∈ clustersLoop g ns visited ctr, x ∈ c.2 := by
  intro ns
  induction ns with
  | nil =>
    intro visited ctr x hx
    exact absurd hx (List.not_mem_nil x)
  | cons n ns ih =>
    intro visited ctr x hx hxv
    simp only [clustersLoop]
    split_ifs with hn
    · rcases List.mem_cons.mp hx with h1 | h2
      · exact absurd (by rw [h1]; exact hn) hxv
      · exact ih _ _ x h2 hxv
    · by_cases hxV : x ∈ (dfs_collect g [n] visited []).2
      · refine ⟨_, List.mem_cons_self _ _, ?_⟩
        rcases D_vis_new g x [n] visited [] hxV with h | h
        · exact absurd h hxv
        · exact (mem_sortStr x _).mpr h
      · rcases List.mem_cons.mp hx with h1 | h2
        · exfalso
          apply hxV
          subst h1
          rw [dfs_push hn]
          exact D_vis_mono g x _ _ _ (List.mem_cons_self _ _)
        · rcases ih _ (ctr + 1) x h2 hxV with ⟨c, hc, hcx⟩
          exact ⟨c, List.mem_cons_of_mem _ hc, hcx⟩

/-- C7: amended clustering property. `build_clusters` emits one cluster per
connected component of the graph built from the kept candidate pairs: the
cluster members taken together are exactly the graph's nodes, the clusters
are pairwise disjoint, every cluster is connected under candidate-pair
reachability, and every cluster is closed under candidate-pair edges. The
claim's second part is wrong: an individual with no surviving candidate pair
never enters the graph, so it forms no trivial cluster (see the
counterexample). -/
theorem C7_clusters_amended (cands : List Cand) :
    (∀ x : Str, (∃ c ∈ build_clusters cands, x ∈ c.2) ↔
        x ∈ graphKeys (buildGraph cands)) ∧
    List.Pairwise (fun c1 c2 => ∀ x, x ∈ c1.2 → x ∉ c2.2)
      (build_clusters cands) ∧
    (∀ c ∈ build_clusters cands, ∀ x ∈ c.2, ∀ y ∈ c.2,
        Reach (buildGraph cands) x y) ∧
    (∀ c ∈ build_clusters cands, ∀ x ∈ c.2, ∀ y ∈ adj (buildGraph cands) x,
        y ∈ c.2) := by
  have hs := buildGraph_sym cands
  unfold build_clusters
  refine ⟨?_, ?_, ?_, ?_⟩
  · intro x
    constructor
    · rintro ⟨c, hc, hx⟩
      exact CL_members_keys hs _ (fun y hy => hy) _ _ c hc x hx
    · intro hx
      exact CL_complete _ _ _ _ x hx (List.not_mem_nil x)
  · exact CL_pairwise _ _ _ _
  · intro c hc x hx y hy
    rcases CL_reach _ _ _ _ c hc with ⟨s, hr⟩
    exact Relation.ReflTransGen.trans (reach_symm hs (hr x hx)) (hr y hy)
  · intro c hc x hx y hy
    exact CL_closed hs _ _ _ (fun a ha => absurd ha (List.not_mem_nil a)) c hc x hx y hy

/-- C7 counterexample: with one kept candidate pair (A, B) and an individual
X having no surviving pair, `build_clusters` outputs exactly the single
cluster C1 = [A, B]; X gets no trivial cluster, contrary to the claim. -/
theorem C7_clusters_counterexample :
    build_clusters [⟨['A'], ['B'], mkRat 1 1⟩] = [(['C', '1'], [['A'], ['B']])] ∧
    ¬ (∃ c ∈ build_clusters [⟨['A'], ['B'], mkRat 1 1⟩], ['X'] ∈ c.2) := by
  have h : build_clusters [⟨['A'], ['B'], mkRat 1 1⟩] =
      [(['C', '1'], [['A'], ['B']])] := by
    simp +decide [build_clusters, buildGraph, graphAdd, graphKeys, clustersLoop,
      dfs_push, dfs_nil, dfs_mem, adj, alookup, setAdd, sortStr, insertSorted,
      strLe, natDecimal, natDecimalAux, digitCh]
  refine ⟨h, ?_⟩
  rw [h]
  decide

/-- 32-bit truncation (`% 2**32`), used throughout the SHA-256 embedding. -/
def w32 (x : Nat) : Nat := x % 4294967296

/-- 32-bit right rotation. -/
def rotr32 (x n : Nat) : Nat := w32 (x / 2 ^ n + x % 2 ^ n * 2 ^ (32 - n))

/-- 32-bit logical right shift. -/
def shr32 (x n : Nat) : Nat := x / 2 ^ n

/-- 32-bit bitwise complement (arguments are kept below `2**32`). -/
def not32 (x : Nat) : Nat := 4294967295 - x

/-- SHA-256 `Ch(e, f, g)`. -/
def shaCh (e f g : Nat) : Nat := Nat.xor (Nat.land e f) (Nat.land (not32 e) g)

/-- SHA-256 `Maj(a, b, c)`. -/
def shaMaj (a b c : Nat) : Nat :=
  Nat.xor (Nat.xor (Nat.land a b) (Nat.land a c)) (Nat.land b c)

/-- SHA-256 `Σ0`. -/
def bigSigma0 (a : Nat) : Nat := Nat.xor (Nat.xor (rotr32 a 2) (rotr32 a 13)) (rotr32 a 22)

/-- SHA-256 `Σ1`. -/
def bigSigma1 (e : Nat) : Nat := Nat.xor (Nat.xor (rotr32 e 6) (rotr32 e 11)) (rotr32 e 25)

/-- SHA-256 `σ0`. -/
def smallSigma0 (x : Nat) : Nat := Nat.xor (Nat.xor (rotr32 x 7) (rotr32 x 18)) (shr32 x 3)

/-- SHA-256 `σ1`. -/
def smallSigma1 (x : Nat) : Nat := Nat.xor (Nat.xor (rotr32 x 17) (rotr32 x 19)) (shr32 x 10)

/-- The 64 SHA-256 round constants (fractional parts of the cube roots of
the first 64 primes), written in decimal. -/
def K64 : List Nat :=
  [1116352408, 1899447441, 3049323471, 3921009573, 961987163,
   1508970993, 2453635748, 2870763221, 3624381080, 310598401,
   607225278, 1426881987, 1925078388, 2162078206, 2614888103,
   3248222580, 3835390401, 4022224774, 264347078, 604807628,
   770255983, 1249150122, 1555081692, 1996064986, 2554220882,
   2821834349, 2952996808, 3210313671, 3336571891, 3584528711,
   113926993, 338241895, 666307205, 773529912, 1294757372,
   1396182291, 1695183700, 1986661051, 2177026350, 2456956037,
   2730485921, 2820302411, 3259730800, 3345764771, 3516065817,
   3600352804, 4094571909, 275423344, 430227734, 506948616,
   659060556, 883997877, 958139571, 1322822218, 1537002063,
   1747873779, 1955562222, 2024104815, 2227730452, 2361852424,
   2428436474, 2756734187, 3204031479, 3329325298]

/-- The SHA-256 initial hash state (fractional parts of the square roots of
the first 8 primes), written in decimal. -/
def H0 : List Nat :=
  [1779033703, 3144134277, 1013904242, 2773480762, 1359893119,
   2600822924, 528734635, 1541459225]

/-- `n`-byte big-endian encoding of `v`. -/
def beBytes (n v : Nat) : List Nat :=
  (List.range n).map (fun i => v / 2 ^ (8 * (n - 1 - i)) % 256)

/-- Number of zero pad bytes so the padded length is a multiple of 64. -/
def padZeros (len : Nat) : Nat := (120 - (len + 1) % 64) % 64

/-- Split a byte string into 64-byte blocks. -/
def chunks64 (l : List Nat) : List (List Nat) :=
  if h : l = [] then []
  else l.take 64 :: chunks64 (l.drop 64)
termination_by l.length
decreasing_by
  have hpos : 0 < l.length := List.length_pos.mpr h
  simp only [List.length_drop]
  exact Nat.sub_lt hpos (by norm_num)

/-- The 16 initial 32-bit message words of a 64-byte block (big-endian). -/
def toWords (block : List Nat) : List Nat :=
  (List.range 16).map (fun i =>
    block.getD (4 * i) 0 * 2 ^ 24 + block.getD (4 * i + 1) 0 * 2 ^ 16 +
      block.getD (4 * i + 2) 0 * 2 ^ 8 + block.getD (4 * i + 3) 0)

/-- Extend the 16 message words to the 64-entry SHA-256 schedule. -/
def extendSchedule (w16 : List Nat) : List Nat :=
  (List.range 48).foldl
    (fun w _ =>
      w ++ [w32 (smallSigma1 (w.getD (w.length - 2) 0) + w.getD (w.length - 7) 0 +
        smallSigma0 (w.getD (w.length - 15) 0) + w.getD (w.length - 16) 0)])
    w16

/-- One SHA-256 compression round; the state is `[a, b, c, d, e, f, g, h]`. -/
def compressRound (st : List Nat) (kw : Nat × Nat) : List Nat :=
  let a := st.getD 0 0
  let b := st.getD 1 0
  let c := st.getD 2 0
  let d := st.getD 3 0
  let e := st.getD 4 0
  let f := st.getD 5 0
  let g := st.getD 6 0
  let hh := st.getD 7 0
  let t1 := w32 (hh + bigSigma1 e + shaCh e f g + kw.1 + kw.2)
  let t2 := w32 (bigSigma0 a + shaMaj a b c)
  [w32 (t1 + t2), a, b, c, w32 (d + t1), e, f, g]

/-- Process one 64-byte block against the running hash state. -/
def processBlock (H : List Nat) (block : List Nat) : List Nat :=
  let w := extendSchedule (toWords block)
  let st := (K64.zip w).foldl compressRound H
  (List.range 8).map (fun i => w32 (H.getD i 0 + st.getD i 0))

/-- `hashlib.sha256(msg).digest()`: SHA-256 of a byte string. -/
def sha256 (msg : List Nat) : List Nat :=
  let padded := msg ++ 0x80 :: (List.replicate (padZeros msg.length) 0 ++
    beBytes 8 (msg.length * 8))
  ((chunks64 padded).foldl processBlock H0).foldr
    (fun h acc => beBytes 4 h ++ acc) []

/-- Lowercase hex digit. -/
def hexDigit (n : Nat) : Char := if n < 10 then Char.ofNat (48 + n) else Char.ofNat (87 + n)

/-- Two-character lowercase hex of a byte. -/
def byteHex (b : Nat) : Str := [hexDigit (b / 16), hexDigit (b % 16)]

/-- `hashlib.sha256(msg).hexdigest()`. -/
def sha256hex (msg : List Nat) : Str :=
  (sha256 msg).foldr (fun b acc => byteHex b ++ acc) []

/-- The `U+007B` left curly bracket. -/
def lbrace : Char := Char.ofNat 123

/-- The `U+007D` right curly bracket. -/
def rbrace : Char := Char.ofNat 125

/-- Four-character lowercase hex, for JSON `\uXXXX` escapes. -/
def hex4 (n : Nat) : Str :=
  [hexDigit (n / 4096 % 16), hexDigit (n / 256 % 16), hexDigit (n / 16 % 16),
   hexDigit (n % 16)]

/-- One character of CPython `json.dumps` output with the default
`ensure_ascii=True`: `"` and `\` are escaped, control characters get their
short escapes or `\uXXXX`, other printable ASCII is literal, and everything
above `U+007E` becomes `\uXXXX` (a surrogate pair beyond the BMP). -/
def jsonEscapeChar (c : Char) : Str :=
  let n := c.toNat
  if c = '"' then ['\\', '"']
  else if c = '\\' then ['\\', '\\']
  else if n = 8 then ['\\', 'b']
  else if n = 9 then ['\\', 't']
  else if n = 10 then ['\\', 'n']
  else if n = 12 then ['\\', 'f']
  else if n = 13 then ['\\', 'r']
  else if n < 32 then '\\' :: 'u' :: hex4 n
  else if n < 127 then [c]
  else if n < 65536 then '\\' :: 'u' :: hex4 n
  else
    '\\' :: 'u' :: hex4 (55296 + (n - 65536) / 1024) ++
      '\\' :: 'u' :: hex4 (56320 + (n - 65536) % 1024)

/-- A JSON string literal as emitted by `json.dumps`. -/
def jsonStr (s : Str) : Str :=
  '"' :: (s.foldr (fun c acc => jsonEscapeChar c ++ acc) []) ++ ['"']

/-- UTF-8 bytes of one character (`str.encode("utf-8")`). -/
def utf8EncodeChar (c : Char) : List Nat :=
  let n := c.toNat
  if n < 128 then [n]
  else if n < 2048 then [192 + n / 64, 128 + n % 64]
  else if n < 65536 then [224 + n / 4096, 128 + n / 64 % 64, 128 + n % 64]
  else [240 + n / 262144, 128 + n / 4096 % 64, 128 + n / 64 % 64, 128 + n % 64]

/-- `str.encode("utf-8")`. -/
def utf8Encode (s : Str) : List Nat :=
  s.foldr (fun c acc => utf8EncodeChar c ++ acc) []

/-- `str(uuid.UUID(h))` for a 32-character lowercase hex string: hyphenate
as 8-4-4-4-12. -/
def uuidStr (h : Str) : Str :=
  h.take 8 ++ '-' :: (h.drop 8).take 4 ++ '-' :: (h.drop 12).take 4 ++
    '-' :: (h.drop 16).take 4 ++ '-' :: h.drop 20

/-- Source `_hash_to_uuid`, specialised to an already JSON-rendered payload:
`json.dumps(\x7b"ns": namespace, "payload": payload\x7d, sort_keys=True)`
puts `"ns"` before `"payload"` (ASCII order), separated by `", "` and
`": "` (the defaults), then SHA-256 of the UTF-8 bytes, and the first 32
hex characters become a hyphenated UUID string. -/
def hash_to_uuid (ns : Str) (payloadJson : Str) : Str :=
  let key := lbrace :: jsonStr "ns".toList ++ ':' :: ' ' :: jsonStr ns ++
    ',' :: ' ' :: jsonStr "payload".toList ++ ':' :: ' ' :: payloadJson ++ [rbrace]
  uuidStr ((sha256hex (utf8Encode key)).take 32)

/-- JSON rendering (under `sort_keys=True`) of the `uuid_for_record` payload
`\x7b"record_type": record_type, "pointer": pointer\x7d`: `"pointer"` sorts
before `"record_type"`. -/
def recordPayload (record_type pointer : Str) : Str :=
  lbrace :: jsonStr "pointer".toList ++ ':' :: ' ' :: jsonStr pointer ++
    ',' :: ' ' :: jsonStr "record_type".toList ++ ':' :: ' ' ::
    jsonStr record_type ++ [rbrace]

/-- Source `uuid_for_record`: `None` when `not pointer` (absent or empty),
else the namespaced hash of the record-type/pointer payload. -/
def uuid_for_record (record_type : Str) (pointer : Option Str) : Option Str :=
  if truthyOpt pointer then
    match pointer with
    | some p => some (hash_to_uuid "record".toList (recordPayload record_type p))
    | none => none
  else none

/-- Source `uuid_for_pointer`: thin wrapper around `uuid_for_record`. -/
def uuid_for_pointer (record_type : Str) (pointer : Option Str) : Option Str :=
  uuid_for_record record_type pointer

lemma uuid_for_record_empty (kind : Str) :
    uuid_for_record kind (some []) = none := by
  unfold uuid_for_record
  rw [if_neg (show ¬ truthyOpt (some ([] : Str)) from fun hf => hf rfl)]

lemma uuid_for_record_none (kind : Str) :
    uuid_for_record kind none = none := by
  unfold uuid_for_record
  rw [if_neg (show ¬ truthyOpt none from fun hf => hf)]

lemma uuid_for_record_some (kind : Str) (s : Str) (hs : s ≠ []) :
    uuid_for_record kind (some s) =
      some (hash_to_uuid "record".toList (recordPayload kind s)) := by
  unfold uuid_for_record
  have ht : truthyOpt (some s) := hs
  rw [if_pos ht]

/-- C9: amended identity contract. `uuid_for_record` returns `None` exactly
when the pointer is absent OR present but empty — the code tests Python
falsiness (`if not pointer`), not absence, which corrects the claim's
"exactly when the pointer is absent". It never fails; for a non-empty
pointer the result is exactly the namespaced hash of the
record_type/pointer payload, so it depends only on the two arguments and
equal arguments give equal results across any number of calls. -/
theorem C9_identity_amended (kind : Str) (p : Option Str) :
    (uuid_for_record kind p = none ↔ (p = none ∨ p = some [])) ∧
    (∀ s, p = some s → s ≠ [] →
        uuid_for_record kind p =
          some (hash_to_uuid "record".toList (recordPayload kind s))) ∧
    (∀ kind2 p2, kind2 = kind → p2 = p →
        uuid_for_record kind2 p2 = uuid_for_record kind p) := by
  refine ⟨?_, ?_, ?_⟩
  · cases p with
    | none =>
      constructor
      · intro _
        exact Or.inl rfl
      · intro _
        exact uuid_for_record_none kind
    | some s =>
      constructor
      · intro h
        by_cases hs : s = []
        · exact Or.inr (by rw [hs])
        · rw [uuid_for_record_some kind s hs] at h
          exact absurd h (by simp)
      · rintro (h | h)
        · exact absurd h (by simp)
        · have hs : s = [] := by injection h
          rw [hs]
          exact uuid_for_record_empty kind
  · intro s hp hs
    rw [hp]
    exact uuid_for_record_some kind s hs
  · intro kind2 p2 h1 h2
    rw [h1, h2]

/-- C9 witness: a concrete non-empty pointer gets exactly the namespaced
hash of its payload. -/
theorem C9_identity_amended_witness :
    uuid_for_record "INDI".toList (some "@I1@".toList) =
      some (hash_to_uuid "record".toList
        (recordPayload "INDI".toList "@I1@".toList)) :=
  (C9_identity_amended "INDI".toList (some "@I1@".toList)).2.1
    "@I1@".toList rfl (by decide)

/-- C9 counterexample: an empty-string pointer is present (not absent), yet
`uuid_for_record` returns `None`, refuting "None exactly when the pointer
is absent". -/
theorem C9_identity_counterexample :
    uuid_for_record "INDI".toList (some []) = none ∧
      (some [] : Option Str) ≠ none := by
  constructor
  · exact uuid_for_record_empty "INDI".toList
  · simp

/-- GEDCOM parse-tree node as read by the promotion pass: `tag`, `value`,
`pointer`, `lineno`, `children`. -/
inductive Node where
  | mk (tag value pointer : Option Str) (lineno : Option Nat)
      (children : List Node)

/-- Node `tag` attribute. -/
def Node.tag : Node → Option Str
  | .mk t _ _ _ _ => t

/-- Node `value` attribute. -/
def Node.value : Node → Option Str
  | .mk _ v _ _ _ => v

/-- Node `pointer` attribute. -/
def Node.pointer : Node → Option Str
  | .mk _ _ p _ _ => p

/-- Node `lineno` attribute. -/
def Node.lineno : Node → Option Nat
  | .mk _ _ _ l _ => l

/-- Node `children` attribute. -/
def Node.children : Node → List Node
  | .mk _ _ _ _ c => c

/-- Source `_norm_tag`: `(tag or "").strip().upper()`. -/
def norm_tag (tag : Option Str) : Str := upperAscii (stripWs (tag.getD []))

/-- Loop body of `_child_value`: the first child with the wanted normalized
tag whose `value` is not `None` (a matching child with `None` value does not
stop the scan). -/
def child_value_go (want : Str) : List Node → Option Str
  | [] => none
  | ch :: rest =>
    if norm_tag ch.tag = want then
      match ch.value with
      | some v => some v
      | none => child_value_go want rest
    else child_value_go want rest

/-- Source `_child_value`. -/
def child_value (node : Node) (tag : Str) : Option Str :=
  child_value_go (norm_tag (some tag)) node.children

/-- Loop body of `_child_node`. -/
def child_node_go (want : Str) : List Node → Option Node
  | [] => none
  | ch :: rest =>
    if norm_tag ch.tag = want then some ch else child_node_go want rest

/-- Source `_child_node`: first child with the wanted normalized tag. -/
def child_node (node : Node) (tag : Str) : Option Node :=
  child_node_go (norm_tag (some tag)) node.children

/-- One entry of `_collect_file_entries`. -/
structure FileEntry where
  path : Option Str
  form : Option Str
  title : Option Str
  media_type : Option Str

/-- Source `_collect_file_entries`: the FILE blocks under an OBJE node. -/
def collect_file_entries (obje : Node) : List FileEntry :=
  obje.children.foldr
    (fun ch acc =>
      if norm_tag ch.tag = "FILE".toList then
        ⟨ch.value, child_value ch "FORM".toList, child_value ch "TITL".toList,
          child_value ch "TYPE".toList⟩ :: acc
      else acc)
    []

/-- Source `should_promote_inline_obje`: promote when a FILE child exists, or
when TITL is non-empty after stripping (`bool(titl and titl.strip())`). -/
def should_promote_inline_obje (obje : Option Node) : Bool :=
  match obje with
  | none => false
  | some n =>
    if (child_node n "FILE".toList).isSome then true
    else
      match child_value n "TITL".toList with
      | none => false
      | some t => decide (t ≠ []) && decide (stripWs t ≠ [])

/-- The nested dict produced by `_node_to_record_dict`. -/
inductive RecDict where
  | mk (tag value pointer : Option Str) (lineno : Option Nat)
      (children : List RecDict)

/-- Source `_node_to_record_dict`. -/
def node_to_record_dict : Node → RecDict
  | .mk t v p l cs => .mk t v p l (cs.attach.map (fun c => node_to_record_dict c.1))
decreasing_by
  have h1 := List.sizeOf_lt_of_mem c.2
  simp only [Node.mk.sizeOf_spec]
  omega

/-- Source `AttachedRecord`; of its `raw` dict the promotion pass reads only
`owner_pointer`, `lineno` and `owner_type`, carried here as fields. -/
structure AttachedRecord where
  media_object_id : Option Str
  pointer : Option Str
  file : Option Str
  title : Option Str
  form : Option Str
  media_type : Option Str
  role : Option Str
  promoted : Bool
  raw_owner_pointer : Option Str
  raw_lineno : Option Nat
  raw_owner_type : Option Str

/-- Source `MediaFile` (never constructed on the reachable promotion path). -/
structure MediaFile where
  path : Option Str
  form : Option Str
  media_type : Option Str
  title : Option Str

/-- Source `MediaObjectEntity` (never constructed on the reachable path). -/
structure MediaObj where
  uuid : Option Str
  pointer : Option Str
  title : Option Str
  files : List MediaFile

/-- An entity as seen by `promote_entity`: only `attachments` is read. -/
structure PEntity where
  attachments : List AttachedRecord

/-- Source `GedcomRegistry`, as read by the promotion pass. -/
structure PRegistry where
  individuals : List (Str × PEntity)
  families : List (Str × PEntity)
  sources : List (Str × PEntity)
  media_objects : List (Str × MediaObj)

/-- `GEDCOMTree` as read by the promotion pass: its `records`. -/
structure GTree where
  records : List Node

/-- Python raised exceptions observable in this embedding. -/
inductive PyErr where
  | typeError
deriving DecidableEq

/-- `obje_index`: a dict keyed by `(top_record_pointer, lineno)`. -/
def ObjeIdx : Type := List ((Option Str × Option Nat) × Node)

/-- Dict lookup for `obje_index`. -/
def olookup : ObjeIdx → (Option Str × Option Nat) → Option Node
  | [], _ => none
  | (k, v) :: rest, q => if k = q then some v else olookup rest q

/-- Dict assignment for `obje_index`: update in place, else append. -/
def oset : ObjeIdx → (Option Str × Option Nat) → Node → ObjeIdx
  | [], k, v => [(k, v)]
  | (k0, v0) :: rest, k, v =>
    if k0 = k then (k0, v) :: rest else (k0, v0) :: oset rest k v

/-- Source `index_inline_objes` over a child list: a childless-pointer OBJE
child is indexed under `(top_ptr, lineno)`, then the child is recursed into,
then the remaining siblings. -/
def indexInlineList (topPtr : Option Str) : List Node → ObjeIdx → ObjeIdx
  | [], idx => idx
  | ch :: rest, idx =>
    let idx2 :=
      if norm_tag ch.tag = "OBJE".toList ∧ ¬ truthyOpt ch.pointer then
        oset idx (topPtr, ch.lineno) ch
      else idx
    indexInlineList topPtr rest (indexInlineList topPtr ch.children idx2)
termination_by l _ => sizeOf l
decreasing_by
  all_goals first
    | (cases ch; simp [Node.children]; omega)
    | (simp; omega)
    | simp
    | omega

/-- The `obje_index` building loop of `promote_inline_media_objects`. -/
def build_obje_index (tree : GTree) : ObjeIdx :=
  tree.records.foldl (fun idx top => indexInlineList top.pointer top.children idx) []

/-- One iteration of the attachment loop in `promote_entity`. The final
branch models the source's `uuid_for_record(record_dict)` call: the imported
`uuid_for_record(record_type, pointer)` takes two required positional
parameters, so this one-argument call raises `TypeError`; everything after
that line (media creation, `created += 1`) is unreachable, which is also why
the registry's `media_objects` dict can be passed in unchanged. -/
def promoteAtt (rm : List (Str × MediaObj)) (idx : ObjeIdx)
    (att : AttachedRecord) : Except PyErr AttachedRecord :=
  if truthyOpt att.pointer then
    .ok { att with media_object_id := att.pointer }
  else if att.promoted = true ∧ truthyOpt att.media_object_id ∧
      (alookup rm (att.media_object_id.getD [])).isSome = true then
    .ok att
  else
    match olookup idx (att.raw_owner_pointer, att.raw_lineno) with
    | none => .ok att
    | some obje =>
      if ¬ should_promote_inline_obje (some obje) = true then .ok att
      else
        let _ := node_to_record_dict obje
        .error .typeError

/-- The attachment loop of `promote_entity`, threading the first error. -/
def promoteAtts (rm : List (Str × MediaObj)) (idx : ObjeIdx) :
    List AttachedRecord → Except PyErr (List AttachedRecord)
  | [] => .ok []
  | a :: rest => do
    let a2 ← promoteAtt rm idx a
    let rest2 ← promoteAtts rm idx rest
    .ok (a2 :: rest2)

/-- Source `promote_entity`. -/
def promoteEntity (rm : List (Str × MediaObj)) (idx : ObjeIdx)
    (e : PEntity) : Except PyErr PEntity := do
  let atts ← promoteAtts rm idx e.attachments
  .ok ⟨atts⟩

/-- `promote_entity` over one registry dict's values. -/
def promoteEntityList (rm : List (Str × MediaObj)) (idx : ObjeIdx) :
    List (Str × PEntity) → Except PyErr (List (Str × PEntity))
  | [] => .ok []
  | (k, e) :: rest => do
    let e2 ← promoteEntity rm idx e
    let rest2 ← promoteEntityList rm idx rest
    .ok ((k, e2) :: rest2)

/-- Source `promote_inline_media_objects`. On a run that completes, the
returned count is 0, because the only `created += 1` sits after the raising
one-argument `uuid_for_record` call. -/
def promote_inline_media_objects (registry : PRegistry) (tree : GTree) :
    Except PyErr (PRegistry × Nat) := do
  let idx := build_obje_index tree
  let inds ← promoteEntityList registry.media_objects idx registry.individuals
  let fams ← promoteEntityList registry.media_objects idx registry.families
  let srcs ← promoteEntityList registry.media_objects idx registry.sources
  .ok (⟨inds, fams, srcs, registry.media_objects⟩, 0)

/-- C1 failing input: a qualifying inline OBJE (FILE child, no pointer) at
line 2 of record @I1@. -/
def c1Obje : Node :=
  .mk (some "OBJE".toList) none none (some 2)
    [.mk (some "FILE".toList) (some "photo.jpg".toList) none (some 3) []]

/-- C1 failing input: the @I1@ top-level record holding the inline OBJE. -/
def c1Top : Node :=
  .mk (some "INDI".toList) none (some "@I1@".toList) (some 1) [c1Obje]

/-- C1 failing input: the source tree. -/
def c1Tree : GTree := ⟨[c1Top]⟩

/-- C1 failing input: the inline-form attachment extracted from that OBJE
(owner @I1@, lineno 2, not yet promoted). -/
def c1Att : AttachedRecord :=
  ⟨none, none, none, none, none, none, none, false,
    some "@I1@".toList, some 2, some "IndividualEntity".toList⟩

/-- C1 failing input: a registry with the one individual owning the inline
attachment. -/
def c1Reg : PRegistry := ⟨[("@I1@".toList, ⟨[c1Att]⟩)], [], [], []⟩

/-- C1: the claimed idempotence guarantee fails because the promotion pass
cannot run at all on a qualifying inline attachment: it calls the imported
two-parameter `uuid_for_record` with one argument, raising `TypeError` on
the very first run. -/
theorem C1_promotion_type_error :
    should_promote_inline_obje (some c1Obje) = true ∧
    promote_inline_media_objects c1Reg c1Tree = Except.error PyErr.typeError := by
  have hidx : build_obje_index c1Tree = [((some "@I1@".toList, some 2), c1Obje)] := by
    simp +decide [build_obje_index, indexInlineList, oset, c1Tree, c1Top, c1Obje,
      norm_tag, stripWs, upperAscii, truthyOpt, Node.tag, Node.children,
      Node.pointer, Node.lineno]
  constructor
  · rfl
  · simp only [promote_inline_media_objects]
    rw [hidx]
    rfl
